import Mathlib

/-!
Shallow embedding of the `pulseblaster` repository
(`pulseblaster/data_structures.py`, `pulseblaster/generate_pulses.py`,
`pulseblaster/read_code.py`, `pulseblaster/utils.py`) in Lean 4.

Conventions of the embedding:
* Python `int` is modelled as `ℤ`, Python `float` as `ℚ` (all float
  computations exercised by the theorems below are exact in ℚ, or round
  identically to binary floating point at the concrete inputs used).
* Python `round` (banker's rounding, round-half-to-even) is `pyRound`;
  Python `int(...)` applied to a float (truncation toward zero) is `pyTrunc`.
* Python `//` on nonnegative ints is `Int.fdiv`, `%` is `Int.emod` (identical
  to Python's `%` for positive moduli).
* Python `set[int]` values are modelled as `List ℤ` used only through
  membership (union = append, difference/intersection = filter); every
  consumer of such a set in the source reads it through membership only.
* Fallible code returns `Except String`; functions that the source can drive
  into an unbounded `while` loop (`unroll_duration_flags`) take fuel and
  return `Option` (`none` = fuel exhausted).
-/

namespace PB

instance {ε α : Type} [DecidableEq ε] [DecidableEq α] :
    DecidableEq (Except ε α) := fun a b =>
  match a, b with
  | .error e, .error f =>
      if h : e = f then .isTrue (h ▸ rfl)
      else .isFalse (fun c => h (Except.error.inj c))
  | .ok x, .ok y =>
      if h : x = y then .isTrue (h ▸ rfl)
      else .isFalse (fun c => h (Except.ok.inj c))
  | .error _, .ok _ => .isFalse (fun c => Except.noConfusion c)
  | .ok _, .error _ => .isFalse (fun c => Except.noConfusion c)

/-- Floor of a rational (`Int.fdiv` floors, and a `Rat`'s denominator is
positive), written out so that it evaluates by kernel reduction. -/
def ratFloor (q : ℚ) : ℤ := q.num.fdiv q.den

instance : DecidableEq (List ℤ × List (List ℤ) × Option ℕ × List ℤ) :=
  inferInstance

instance : DecidableEq (Except String (List ℤ × List (List ℤ) × Option ℕ × List ℤ)) :=
  inferInstance

/-- Python `round(x)` for a real (float) argument: round half to even. -/
def pyRound (q : ℚ) : ℤ :=
  let n : ℤ := ratFloor q
  let r : ℚ := q - (n : ℚ)
  if r < 1/2 then n
  else if 1/2 < r then n + 1
  else if n % 2 = 0 then n else n + 1

/-- Python `int(x)` for a real (float) argument: truncation toward zero. -/
def pyTrunc (q : ℚ) : ℤ :=
  if q < 0 then -(ratFloor (-q)) else ratFloor q

/-- `utils.round_to_nearest_n_ns`:
`int(round(value / ns_round) * ns_round)`. -/
def round_to_nearest_n_ns (value ns_round : ℤ) : ℤ :=
  pyRound ((value : ℚ) / (ns_round : ℚ)) * ns_round

/-- `data_structures.Pulse`: a signal quantized to integer counts of the
current time quantum. -/
structure Pulse where
  period : ℤ
  channels : List ℤ
  offset : ℤ
  high : ℤ
  active_high : Bool
  deriving DecidableEq, Repr

/-- `data_structures.Signal` after a successful `__post_init__`:
`duty_cycle_set` records the private `_duty_cycle_set` attribute. -/
structure Signal where
  frequency : ℚ
  channels : List ℤ
  offset : ℤ
  duty_cycle : ℚ
  high : ℤ
  active_high : Bool
  duty_cycle_set : Bool
  deriving DecidableEq, Repr

/-- The authoritative high value of a `Signal` under construction
(`Signal.__post_init__`): the given `high`, or, when that is 0 (unset), the
value derived from the duty cycle (`int((1/frequency*1e9) * duty_cycle)`). -/
def signalHighValue (frequency duty_cycle : ℚ) (high : ℤ) : ℤ :=
  if high = 0 then pyTrunc ((1 / frequency * 1000000000) * duty_cycle)
  else high

/-- The duty cycle retained by `Signal.__post_init__`: the given one when
`high` is unset, else `high / (1/frequency * 1e9)`. -/
def signalDutyValue (frequency duty_cycle : ℚ) (high : ℤ) : ℚ :=
  if high = 0 then duty_cycle
  else (high : ℚ) / (1 / frequency * 1000000000)

/-- `Signal.__init__` + `Signal.__post_init__`: validation and derivation of
`high` / `duty_cycle`.  Returns `Except.error` where the source raises
`ValueError` (checks in source order). -/
def mkSignal (frequency : ℚ) (channels : List ℤ) (offset : ℤ := 0)
    (duty_cycle : ℚ := 1/2) (high : ℤ := 0) (active_high : Bool := true) :
    Except String Signal :=
  if frequency ≤ 0 then .error "Frequency must be positive"
  else if offset < 0 then .error "Offset must be non-negative"
  else if high < 0 then .error "High time must be non-negative"
  else if ¬ (0 ≤ duty_cycle ∧ duty_cycle ≤ 1) then
    .error "Duty cycle must be between 0 and 1"
  else if channels = [] then .error "At least one channel must be specified"
  else if channels.any (fun ch => ch < 0) then
    .error "Channels must be non-negative"
  else if 1 / frequency ≤
      (signalHighValue frequency duty_cycle high : ℚ) * (1 / 1000000000) then
    .error "Pulse high >= period"
  else
    .ok ⟨frequency, channels, offset, signalDutyValue frequency duty_cycle high,
      signalHighValue frequency duty_cycle high, active_high, high = 0⟩

/-- gcd of a list of ints, as Python `math.gcd(*xs)` (with `gcd() = 0`). -/
def listGcd (xs : List ℤ) : ℤ :=
  xs.foldr (fun x g => (Int.gcd x g : ℤ)) 0

/-- lcm of a list of ints, as Python `math.lcm(*xs)` (with `lcm() = 1`). -/
def listLcm (xs : List ℤ) : ℤ :=
  xs.foldr (fun x l => (Int.lcm x l : ℤ)) 1

/-- minimum of a list of rationals, as Python `min(xs)` (0 for the empty
list, on which the source would raise). -/
def listMin : List ℚ → ℚ
  | [] => 0
  | x :: xs => xs.foldl min x

/-- maximum of a list of ints with a default, as Python
`max(xs, default=d)`. -/
def listMaxD (xs : List ℤ) (d : ℤ) : ℤ :=
  xs.foldl max d

/-- `generate_pulses.minimum_duration_and_num_cycles`.  Returns
`(duration [ns], number of instruction cycles, rescaled frequencies)`. -/
def minimum_duration_and_num_cycles (pulses masking_pulses : List Signal)
    (duration : Option ℤ) (min_instruction_len : ℤ) (n_round : ℤ := 5000)
    (n_digits : ℕ := 4) (t_max : ℤ := 10000000000) :
    Except String (ℤ × ℤ × List ℚ) :=
  let ns_round := n_round * min_instruction_len
  let frequencies := pulses.map (·.frequency) ++ masking_pulses.map (·.frequency)
  match duration with
  | some d =>
      .ok (d, pyTrunc ((d : ℚ) / (min_instruction_len : ℚ)), frequencies)
  | none =>
      let rounded := frequencies.map (fun f => pyRound (f * 10 ^ n_digits))
      let gcd_freqs := listGcd rounded
      if gcd_freqs ∈ rounded then
        let fmin := listMin frequencies
        let d := round_to_nearest_n_ns (pyRound (1 / fmin * 1000000000)) ns_round
        let freqs := frequencies.map (fun f =>
          (1000000000 : ℚ) /
            ((round_to_nearest_n_ns (pyRound ((d : ℚ) / (f / fmin)))
              min_instruction_len : ℤ) : ℚ))
        .ok (d, pyTrunc ((d : ℚ) / (min_instruction_len : ℚ)), freqs)
      else
        let periods := frequencies.map (fun f => pyRound (1 / f * 1000000000))
        let periods := periods.map (fun p => p - p % min_instruction_len)
        let periods := periods.map (fun p => round_to_nearest_n_ns p ns_round)
        let lcm_periods := listLcm periods
        if t_max ≤ lcm_periods then
          .error "lcm timespan of input frequencies is too large"
        else
          .ok (lcm_periods,
            pyTrunc ((lcm_periods : ℚ) / (min_instruction_len : ℚ)),
            periods.map (fun p : ℤ => (1000000000 : ℚ) / (p : ℚ)))

/-- `generate_pulses.pulses_convert_to_instruction_length`: convert signals
from nanosecond durations to durations in units of the instruction length.
Returns the quantized pulses together with the collected instruction-cycle
values `[f, h(, o if o ≠ 0), ...]` in source order. -/
def pulses_convert_to_instruction_length :
    List Signal → ℤ → List Pulse × List ℤ
  | [], _ => ([], [])
  | signal :: rest, min_instruction_len =>
      let f := pyRound (1 / signal.frequency /
        ((min_instruction_len : ℚ) * (1 / 1000000000)))
      let o := pyRound ((signal.offset : ℚ) / (min_instruction_len : ℚ))
      let h :=
        if signal.duty_cycle_set then pyRound ((f : ℚ) * signal.duty_cycle)
        else pyRound ((signal.high : ℚ) / (min_instruction_len : ℚ))
      let cyc := [f, h] ++ (if o ≠ 0 then [o] else [])
      let (ps, cs) := pulses_convert_to_instruction_length rest min_instruction_len
      (⟨f, signal.channels, o, h, signal.active_high⟩ :: ps, cyc ++ cs)

/-- `generate_pulses.rescale_pulses`: divide every pulse's period/offset/high
by `gcd_cycles` (Python `//=`) when `gcd_cycles ≠ 1`. -/
def rescale_pulses (gcd_cycles : ℤ)
    (pulses_cycle_units masking_pulses_cycle_units : List Pulse) :
    List Pulse × List Pulse :=
  if gcd_cycles ≠ 1 then
    (pulses_cycle_units.map (fun p =>
        { p with period := p.period.fdiv gcd_cycles,
                 offset := p.offset.fdiv gcd_cycles,
                 high := p.high.fdiv gcd_cycles }),
     masking_pulses_cycle_units.map (fun p =>
        { p with period := p.period.fdiv gcd_cycles,
                 offset := p.offset.fdiv gcd_cycles,
                 high := p.high.fdiv gcd_cycles }))
  else (pulses_cycle_units, masking_pulses_cycle_units)

/-- `generate_pulses.calculate_resets`: one simulation cycle for the primary
pulses.  Walks the pulses in parallel with their elapsed counters; a pulse
whose offset has been reached contributes its channels while its elapsed
counter is `< high`, and its counter advances modulo its period.  Returns
`(channels_active, updated elapsed counters)`. -/
def calculate_resets :
    List ℤ → List Pulse → ℤ → List ℤ × List ℤ
  | e :: es, pulse :: ps, instruction_cycle =>
      let rest := calculate_resets es ps instruction_cycle
      if pulse.offset ≤ instruction_cycle then
        ((if e < pulse.high then pulse.channels else []) ++ rest.1,
         ((e + 1) % pulse.period) :: rest.2)
      else (rest.1, e :: rest.2)
  | es, _, _ => ([], es)

/-- `generate_pulses.calculate_resets_masking`: one simulation cycle for the
masking pulses.  Starting from the base channel set, a masking pulse whose
offset has been reached removes its channels while its elapsed counter is
`≥ high`; counters advance exactly as in `calculate_resets`.  (The source
also accepts a pulse list as `base_channels`, taking its channel union; the
compiler only ever passes the channel set, which is what is modelled.) -/
def calculate_resets_masking :
    List ℤ → List ℤ → List Pulse → ℤ → List ℤ × List ℤ
  | e :: es, base_channels, pulse :: ps, instruction_cycle =>
      if pulse.offset ≤ instruction_cycle then
        let rest := calculate_resets_masking es
          (if pulse.high ≤ e then
            base_channels.filter (fun c => ¬ c ∈ pulse.channels)
          else base_channels) ps instruction_cycle
        (rest.1, ((e + 1) % pulse.period) :: rest.2)
      else
        let rest := calculate_resets_masking es base_channels ps
          instruction_cycle
        (rest.1, e :: rest.2)
  | es, base_channels, _, _ => (base_channels, es)

/-- `utils.set_reserved_channels`: overwrite the trailing
`reserved_channels` entries with 1 iff any non-reserved entry is nonzero.
(The source raises when `reserved_channels ≥ len(flags)`; the compiler's own
validation makes that branch unreachable, and it is modelled as identity.) -/
def set_reserved_channels (flags : List ℤ) (reserved_channels : ℤ) :
    List ℤ :=
  if reserved_channels ≤ 0 then flags
  else if (flags.length : ℤ) ≤ reserved_channels then flags
  else
    let keep := flags.take (flags.length - reserved_channels.toNat)
    let reserved_value : ℤ := if keep.any (fun x => x ≠ 0) then 1 else 0
    keep ++ List.replicate reserved_channels.toNat reserved_value

/-- `utils.all_channels_off`: the all-signals-off channel state (active-low
channels high), with reserved channels mirroring. -/
def all_channels_off (pulses : List Signal) (nr_channels : ℤ := 24)
    (reserved_channels : ℤ := 3) : List ℤ :=
  let c := pulses.foldl (fun acc pulse =>
      if pulse.active_high then acc
      else pulse.channels.foldl (fun a ch => a.set ch.toNat 1) acc)
    (List.replicate nr_channels.toNat 0)
  set_reserved_channels c reserved_channels

/-- The run-length-compression step of the compiler's main loop
(`generate_repeating_pulses`, the `if not c / elif c[-1] == chs / else`
block): merge a cycle's channel state `chs` into the accumulated
`(t, c)` lists. -/
def rll_append (min_instruction_len : ℤ) (t : List ℤ) (c : List (List ℤ))
    (chs : List ℤ) : List ℤ × List (List ℤ) :=
  if c = [] then (t ++ [min_instruction_len], c ++ [chs])
  else if c.getLast? = some chs then
    (t.dropLast ++ [t.getLastD 0 + min_instruction_len], c)
  else (t ++ [min_instruction_len], c ++ [chs])

/-- The channel bitmask composed in one iteration of the compiler's main
loop: gating (primary ∩ masking), active-low inversion and reserved-channel
mirroring, from the elapsed-counter lists holding at that cycle. -/
def cycle_chs (pulses masks : List Pulse)
    (signal_channels active_low : List ℤ) (nr_channels res : ℤ)
    (pe me : List ℤ) (instruction_cycle : ℤ) : List ℤ :=
  let channels_active := (calculate_resets pe pulses instruction_cycle).1
  let channels_masking_active :=
    (calculate_resets_masking me signal_channels masks instruction_cycle).1
  let gated_channels :=
    channels_active.filter (fun ch => ch ∈ channels_masking_active)
  let chs0 := gated_channels.foldl (fun a ch => a.set ch.toNat 1)
    (List.replicate nr_channels.toNat 0)
  let chs1 := active_low.foldl
    (fun a ch => a.set ch.toNat (if a.getD ch.toNat 0 ≠ 0 then 0 else 1)) chs0
  set_reserved_channels chs1 res

def compile_cycle (pulses masks : List Pulse)
    (signal_channels active_low : List ℤ) (q nr_channels res : ℤ)
    (st : List ℤ × List ℤ × List ℤ × List (List ℤ)) (instruction_cycle : ℤ) :
    List ℤ × List ℤ × List ℤ × List (List ℤ) :=
  let chs := cycle_chs pulses masks signal_channels active_low nr_channels
    res st.1 st.2.1 instruction_cycle
  let tc := rll_append q st.2.2.1 st.2.2.2 chs
  ((calculate_resets st.1 pulses instruction_cycle).2,
   (calculate_resets_masking st.2.1 signal_channels masks
      instruction_cycle).2,
   tc.1, tc.2)

/-- The state of the compiler's main loop after the cycles `0, ..., n-1`:
`(pulse_elapsed_cycles, masking_pulse_elapsed_cycles, t, c)`. -/
def generate_fold (pulses masks : List Pulse)
    (signal_channels active_low : List ℤ) (q nr_channels res : ℤ)
    (nr_cycles : ℕ) : List ℤ × List ℤ × List ℤ × List (List ℤ) :=
  (List.range nr_cycles).foldl
    (fun st (n : ℕ) =>
      compile_cycle pulses masks signal_channels active_low q nr_channels res
        st (n : ℤ))
    (List.replicate pulses.length 0, List.replicate masks.length 0, [], [])

/-- The compiler's main loop (`for instruction_cycle in range(nr_cycles)`),
producing the run-length-compressed `(t, c)` lists. -/
def generate_loop (pulses masks : List Pulse)
    (signal_channels active_low : List ℤ) (q nr_channels res : ℤ)
    (nr_cycles : ℕ) : List ℤ × List (List ℤ) :=
  let fin := generate_fold pulses masks signal_channels active_low q
    nr_channels res nr_cycles
  (fin.2.2.1, fin.2.2.2)

/-- `data_structures.Opcode` (the `spinapi` integer values are irrelevant to
all claims and are not modelled). -/
inductive Opcode where
  | CONTINUE | STOP | LOOP | END_LOOP | JSR | RTS | BRANCH | LONG_DELAY | WAIT
  deriving DecidableEq, Repr

/-- `data_structures.Instruction`. -/
structure Instruction where
  label : String
  flags : List ℤ
  duration : ℤ
  opcode : Opcode
  inst_data : ℤ
  deriving DecidableEq, Repr

/-- Lines 349–435 of `generate_repeating_pulses`, parameterized by the
greatest-common-divisor coarsening factor actually applied: rescale the
pulses, coarsen the quantum, run the per-cycle loop, and emit the CONTINUE
instructions followed by the terminal BRANCH.  `generate_repeating_pulses`
calls this with the computed gcd; calling it with `1` yields the sequence
generated without coarsening. -/
def generate_with_gcd (gcd_cycles : ℤ) (pulses masks : List Pulse)
    (signals : List Signal) (signal_channels : List ℤ) (duration : ℤ)
    (min_instruction_len nr_channels reserved_channels : ℤ) :
    List Instruction :=
  let r := rescale_pulses gcd_cycles pulses masks
  let q := min_instruction_len * gcd_cycles
  let nr_cycles := pyTrunc ((duration : ℚ) / (q : ℚ)) - 1
  let active_low_channels :=
    (signals.filter (fun s => ¬ s.active_high)).flatMap (·.channels)
  let tc := generate_loop r.1 r.2 signal_channels active_low_channels q
    nr_channels reserved_channels nr_cycles.toNat
  let channels_off := all_channels_off signals nr_channels reserved_channels
  (List.zip tc.1 tc.2).map (fun tc =>
    Instruction.mk "" tc.2 tc.1 Opcode.CONTINUE 0)
    ++ [Instruction.mk "" channels_off q Opcode.BRANCH 0]

/-- Lines 274–325 of `generate_repeating_pulses`: input validation,
synchronization, deep copy of the signals and assignment of the rescaled
frequencies to the copies.  Returns
`(copied signals, copied masking signals, rescaled frequencies, duration,
nr_cycles)`. -/
def generate_plan (signals : List Signal)
    (masking_signals : List Signal := []) (min_instruction_len : ℤ := 20)
    (nr_channels : ℤ := 24) (reserved_channels : ℤ := 3) :
    Except String (List Signal × List Signal × List ℚ × ℤ × ℤ) :=
  if signals = [] then .error "At least one signal must be provided"
  else if min_instruction_len ≤ 0 then
    .error "min_instruction_len must be positive"
  else if nr_channels ≤ 0 then .error "nr_channels must be positive"
  else if reserved_channels < 0 then
    .error "reserved_channels must be non-negative"
  else if nr_channels ≤ reserved_channels then
    .error "reserved_channels must be less than nr_channels"
  else
    let signal_channels := signals.flatMap (·.channels)
    let masking_channels := masking_signals.flatMap (·.channels)
    let max_controllable_channel := nr_channels - reserved_channels - 1
    if max_controllable_channel <
        listMaxD (signal_channels ++ masking_channels) (-1) then
      .error "Signal channels exceed the configured controllable range"
    else if masking_channels.any (fun ch => ¬ ch ∈ signal_channels) then
      .error "Masking channels must be a subset of signal channels"
    else
      match minimum_duration_and_num_cycles signals masking_signals none
          min_instruction_len with
      | .error e => .error e
      | .ok (duration, nr_cycles, frequencies_rescaled) =>
        let signalsC := (List.zip signals frequencies_rescaled).map
          (fun sf => { sf.1 with frequency := sf.2 })
        let maskingC := (List.zip masking_signals
            (frequencies_rescaled.drop
              (frequencies_rescaled.length - masking_signals.length))).map
          (fun sf => { sf.1 with frequency := sf.2 })
        .ok (signalsC, maskingC, frequencies_rescaled, duration, nr_cycles)

/-- Lines 327–435 of `generate_repeating_pulses`: quantization, gcd
computation and instruction emission, applied to the already-copied
signals. -/
def generate_emit (signalsC maskingC : List Signal)
    (signal_channels : List ℤ) (duration nr_cycles : ℤ)
    (min_instruction_len nr_channels reserved_channels : ℤ) :
    List Instruction :=
  let (pulses_cycle_units, instruction_cycles) :=
    pulses_convert_to_instruction_length signalsC min_instruction_len
  let (masking_pulses_cycle_units, instruction_cycles_masking) :=
    pulses_convert_to_instruction_length maskingC min_instruction_len
  let cyc0 := instruction_cycles ++ instruction_cycles_masking
  let cyc := if cyc0 ≠ [] then cyc0 ++ [nr_cycles] else cyc0
  let gcd_cycles := listGcd cyc
  generate_with_gcd gcd_cycles pulses_cycle_units masking_pulses_cycle_units
    signalsC signal_channels duration min_instruction_len nr_channels
    reserved_channels

/-- `generate_pulses.generate_repeating_pulses`: the full compiler pipeline
(validation, synchronization, copy, quantization, gcd coarsening, per-cycle
simulation, instruction emission).  The progress bar is purely
observational and not modelled. -/
def generate_repeating_pulses (signals : List Signal)
    (masking_signals : List Signal := []) (min_instruction_len : ℤ := 20)
    (nr_channels : ℤ := 24) (reserved_channels : ℤ := 3) :
    Except String (List Instruction) :=
  match generate_plan signals masking_signals min_instruction_len nr_channels
      reserved_channels with
  | .error e => .error e
  | .ok (signalsC, maskingC, _, duration, nr_cycles) =>
      .ok (generate_emit signalsC maskingC (signals.flatMap (·.channels))
        duration nr_cycles min_instruction_len nr_channels reserved_channels)

/-- `data_structures.Loop`: loop frame of the unroller. -/
structure LoopFrame where
  idx_start : ℤ
  iterations_left : ℤ
  deriving DecidableEq, Repr

/-- The `while 0 <= idx < len(instructions)` loop of
`data_structures.unroll_duration_flags`, with explicit fuel (the source has
no termination guard and can loop forever; `none` = fuel exhausted).
The stacks (`subroutines`, `loops`) grow at the head here where the source
appends/pops at the end of a Python list; the LIFO discipline is identical.
Besides the source's return triple it also returns the `_addresses` list of
visited original addresses, which `unroll_duration_flags` discards. -/
def unroll_aux (instructions : List Instruction) :
    ℕ → ℤ → List ℤ → List (List ℤ) → List ℤ → List ℤ → List LoopFrame →
    Option (Except String (List ℤ × List (List ℤ) × Option ℕ × List ℤ))
  | 0, _, _, _, _, _, _ => none
  | fuel + 1, idx, durs, flgs, addrs, subs, loops =>
    if 0 ≤ idx ∧ idx < (instructions.length : ℤ) then
      let instruction := instructions.getD idx.toNat ⟨"", [], 0, .CONTINUE, 0⟩
      let durs' := durs ++ [instruction.duration]
      let flgs' := flgs ++ [instruction.flags]
      let addrs' := addrs ++ [idx]
      match instruction.opcode with
      | .JSR =>
          if 0 ≤ instruction.inst_data ∧
              instruction.inst_data < (instructions.length : ℤ) then
            unroll_aux instructions fuel instruction.inst_data durs' flgs'
              addrs' (idx :: subs) loops
          else some (.error "JSR target is outside instruction range")
      | .RTS =>
          match subs with
          | [] => some (.error "RTS encountered without a matching JSR")
          | s :: rest =>
              unroll_aux instructions fuel (s + 1) durs' flgs' addrs' rest loops
      | .LOOP =>
          if instruction.inst_data ≤ 0 then
            some (.error "LOOP iterations must be positive")
          else
            let loops' :=
              match loops with
              | [] => [⟨idx, instruction.inst_data⟩]
              | f :: _ =>
                  if f.idx_start = idx then loops
                  else ⟨idx, instruction.inst_data⟩ :: loops
            unroll_aux instructions fuel (idx + 1) durs' flgs' addrs' subs loops'
      | .END_LOOP =>
          match loops with
          | [] => some (.error "END_LOOP encountered without a matching LOOP")
          | f :: rest =>
              if f.iterations_left - 1 = 0 then
                unroll_aux instructions fuel (idx + 1) durs' flgs' addrs' subs
                  rest
              else
                unroll_aux instructions fuel f.idx_start durs' flgs' addrs' subs
                  (⟨f.idx_start, f.iterations_left - 1⟩ :: rest)
      | .STOP => some (.ok (durs', flgs', none, addrs'))
      | .BRANCH =>
          some (.ok (durs', flgs',
            addrs'.findIdx? (fun a => a = instruction.inst_data), addrs'))
      | _ => unroll_aux instructions fuel (idx + 1) durs' flgs' addrs' subs loops
    else some (.ok (durs, flgs, none, addrs))

/-- `data_structures.unroll_duration_flags`: durations, flags and the
branch-back index of the flattened (unrolled) instruction timeline. -/
def unroll_duration_flags (fuel : ℕ) (instructions : List Instruction) :
    Option (Except String (List ℤ × List (List ℤ) × Option ℕ)) :=
  if instructions = [] then some (.error "Instruction list cannot be empty")
  else
    (unroll_aux instructions fuel 0 [] [] [] [] []).map
      (fun r => r.map (fun x => (x.1, x.2.1, x.2.2.1)))

/-- Placeholder used for out-of-range reads of the signal store (Python
would raise; theorems only use valid references). -/
def defaultSignal : Signal := ⟨1, [0], 0, 1/2, 0, true, true⟩

/-- In-place update of one heap cell. -/
def modifyAt (store : List Signal) (i : ℕ) (f : Signal → Signal) :
    List Signal :=
  match store.get? i with
  | some s => store.set i (f s)
  | none => store

/-- The frequency-assignment loop
`for signal, freq in zip(signals, freqs): signal.frequency = freq`
acting on heap cells `base, base+1, ...`. -/
def assign_frequencies (store : List Signal) (base : ℕ) (freqs : List ℚ) :
    List Signal :=
  freqs.enum.foldl
    (fun st i_f => modifyAt st (base + i_f.1) (fun s => { s with frequency := i_f.2 }))
    store

/-- Heap-passing embedding of `generate_repeating_pulses`: the caller's
`Signal` objects live in a store of mutable cells and are passed by
reference (`signal_refs`, `masking_refs`).  `deepcopy` allocates fresh
cells holding copies of the referenced values; the rescaled frequencies are
then assigned to those fresh cells only (source lines 315–325).  Returns
the final store together with the compiled instructions. -/
def generate_repeating_pulses_refs (store : List Signal)
    (signal_refs masking_refs : List ℕ) (min_instruction_len : ℤ := 20)
    (nr_channels : ℤ := 24) (reserved_channels : ℤ := 3) :
    Except String (List Signal × List Instruction) :=
  let signals := signal_refs.map (fun i => store.getD i defaultSignal)
  let masking_signals := masking_refs.map (fun i => store.getD i defaultSignal)
  match generate_plan signals masking_signals min_instruction_len nr_channels
      reserved_channels with
  | .error e => .error e
  | .ok (signalsC, maskingC, frequencies_rescaled, duration, nr_cycles) =>
      -- deepcopy: allocate fresh cells holding the referenced values
      let store1 := store ++ signals ++ masking_signals
      -- frequency assignments hit only the fresh cells
      -- zip(signals, freqs) stops at the shorter list
      let store2 := assign_frequencies store1 store.length
        (frequencies_rescaled.take signals.length)
      let store3 := assign_frequencies store2 (store.length + signals.length)
        (frequencies_rescaled.drop
          (frequencies_rescaled.length - masking_signals.length))
      .ok (store3,
        generate_emit signalsC maskingC (signals.flatMap (·.channels))
          duration nr_cycles min_instruction_len nr_channels reserved_channels)

/-- Python whitespace (`str.strip`, regex `\s`). -/
def pySpace (c : Char) : Bool :=
  c = ' ' ∨ c = '\t' ∨ c = '\n' ∨ c = '\r' ∨ c = '\x0b' ∨ c = '\x0c'

/-- Python `str.lstrip()`. -/
def lstripL (l : List Char) : List Char := l.dropWhile pySpace

/-- Python `str.rstrip()`. -/
def rstripL (l : List Char) : List Char :=
  (l.reverse.dropWhile pySpace).reverse

/-- Python `str.strip()`. -/
def stripL (l : List Char) : List Char := rstripL (lstripL l)

/-- Python `str.split(sep)` for a single-character separator (keeps empty
pieces). -/
def splitOnCharL (sep : Char) (l : List Char) : List (List Char) :=
  l.foldr
    (fun c acc =>
      match acc with
      | cur :: rest => if c = sep then [] :: cur :: rest else (c :: cur) :: rest
      | [] => [[c]])
    [[]]

/-- Python `line.split("//", maxsplit=1)[0]`: everything before the first
`//`. -/
def dropComment : List Char → List Char
  | [] => []
  | c :: rest =>
      if ['/', '/'].isPrefixOf (c :: rest) then []
      else c :: dropComment rest

/-- Value of a decimal digit list. -/
def digitsToNat (l : List Char) : ℕ :=
  l.foldl (fun acc c => acc * 10 + (c.toNat - '0'.toNat)) 0

/-- Hexadecimal digit test. -/
def isHexDigitL (c : Char) : Bool :=
  c.isDigit ∨ ('a' ≤ c ∧ c ≤ 'f') ∨ ('A' ≤ c ∧ c ≤ 'F')

/-- Hexadecimal digit value. -/
def hexVal (c : Char) : ℕ :=
  if c.isDigit then c.toNat - '0'.toNat
  else if 'a' ≤ c ∧ c ≤ 'f' then c.toNat - 'a'.toNat + 10
  else c.toNat - 'A'.toNat + 10

/-- Python `int(s, 2)` applied after the `0b`/`0B` prefix was removed. -/
def parseBin (l : List Char) : Option ℕ :=
  if l ≠ [] ∧ l.all (fun c => c = '0' ∨ c = '1') then
    some (l.foldl (fun a c => a * 2 + (c.toNat - '0'.toNat)) 0)
  else none

/-- Python `int(s, 16)` applied after the `0x`/`0X` prefix was removed. -/
def parseHex (l : List Char) : Option ℕ :=
  if l ≠ [] ∧ l.all isHexDigitL then
    some (l.foldl (fun a c => a * 16 + hexVal c) 0)
  else none

/-- Python `int(s)`: optional sign, decimal digits, surrounding blanks. -/
def pyIntParse (l : List Char) : Option ℤ :=
  match stripL l with
  | '-' :: ds =>
      if ds ≠ [] ∧ ds.all Char.isDigit then some (-(digitsToNat ds : ℤ))
      else none
  | '+' :: ds =>
      if ds ≠ [] ∧ ds.all Char.isDigit then some (digitsToNat ds : ℤ)
      else none
  | ds =>
      if ds ≠ [] ∧ ds.all Char.isDigit then some (digitsToNat ds : ℤ)
      else none

/-- The unit table of `read_code._parse_duration`
(`{"ns": 1, "us": 1e3, "ms": 1e6, "s": 1e9}`). -/
def time_units : List (List Char × ℚ) :=
  [(['n', 's'], 1), (['u', 's'], 1000), (['m', 's'], 1000000),
   (['s'], 1000000000)]

/-- `read_code._parse_duration`: match
`\s*([0-9]+(?:\.[0-9]+)?)\s*([a-zA-Z]+)\s*` against the whole token, lower
the unit, look it up and truncate `value * unit` to an integer. -/
def parse_duration (duration_token : List Char) : Except String ℤ :=
  let l1 := duration_token.dropWhile pySpace
  let ds := l1.takeWhile Char.isDigit
  let l2 := l1.drop ds.length
  if ds = [] then .error "Invalid duration"
  else
    let (value, l3) : ℚ × List Char :=
      match l2 with
      | '.' :: l2' =>
          let fs := l2'.takeWhile Char.isDigit
          ((digitsToNat ds : ℚ) + (digitsToNat fs : ℚ) / 10 ^ fs.length,
            l2'.drop fs.length)
      | _ => ((digitsToNat ds : ℚ), l2)
    -- a '.' not followed by a digit makes the whole regex fail
    if l2.head? = some '.' ∧ (l2.drop 1).takeWhile Char.isDigit = [] then
      .error "Invalid duration"
    else
      let l4 := l3.dropWhile pySpace
      let unit := l4.takeWhile Char.isAlpha
      let l5 := (l4.drop unit.length).dropWhile pySpace
      if unit = [] ∨ l5 ≠ [] then .error "Invalid duration"
      else
        match (time_units.filter (fun u => u.1 = unit.map Char.toLower)).head? with
        | some u => .ok (pyTrunc (value * u.2))
        | none => .error "Unsupported time unit"

/-- `Opcode[name]` lookup used by the parser (names exactly the enum's). -/
def opcodeOfName (l : List Char) : Option Opcode :=
  if l = "CONTINUE".toList then some .CONTINUE
  else if l = "STOP".toList then some .STOP
  else if l = "LOOP".toList then some .LOOP
  else if l = "END_LOOP".toList then some .END_LOOP
  else if l = "JSR".toList then some .JSR
  else if l = "RTS".toList then some .RTS
  else if l = "BRANCH".toList then some .BRANCH
  else if l = "LONG_DELAY".toList then some .LONG_DELAY
  else if l = "WAIT".toList then some .WAIT
  else none

/-- One entry of `sequence_processed` in `read_code.code_to_instructions`. -/
structure ProcLine where
  label : List Char
  flags : List ℤ
  duration : ℤ
  opcode : Opcode
  inst_data_str : List Char
  line_number : ℕ
  deriving DecidableEq, Repr

/-- Assoc-list lookup standing in for the Python `addresses` dict. -/
def lookupAddr (addresses : List (List Char × ℕ)) (k : List Char) :
    Option ℕ :=
  (addresses.filter (fun a => a.1 = k)).head?.map (·.2)

/-- First pass of `code_to_instructions`: per-line tokenization, label
collection, flags/duration/opcode parsing. -/
def parseLines (nr_flags : ℕ) :
    List (ℕ × List Char) → List (List Char × ℕ) → List ProcLine →
    Except String (List (List Char × ℕ) × List ProcLine)
  | [], addresses, processed => .ok (addresses, processed)
  | (line_number, raw_line) :: rest, addresses, processed =>
    let stripped := stripL ((dropComment raw_line).filter (fun c => c ≠ '\t'))
    if stripped = [] then parseLines nr_flags rest addresses processed
    else
      let seq_str := (splitOnCharL ',' stripped).map stripL
      if seq_str.length < 2 then .error "Invalid instruction"
      else if 4 < seq_str.length then .error "Too many instruction fields"
      else
        let first0 := seq_str.getD 0 []
        let hasLabel := ':' ∈ first0
        let label :=
          if hasLabel then stripL (first0.takeWhile (fun c => c ≠ ':')) else []
        let first_token :=
          if hasLabel then
            stripL (first0.drop ((first0.takeWhile (fun c => c ≠ ':')).length + 1))
          else first0
        if hasLabel ∧ label = [] then .error "Empty label"
        else if hasLabel ∧ lookupAddr addresses label ≠ none then
          .error "Duplicate label"
        else
          let addresses' :=
            if hasLabel then addresses ++ [(label, processed.length)]
            else addresses
          let ftL := first_token.map Char.toLower
          let tmpO : Option ℕ :=
            if ['0', 'b'].isPrefixOf ftL then parseBin (first_token.drop 2)
            else if ['0', 'x'].isPrefixOf ftL then parseHex (first_token.drop 2)
            else none
          match tmpO with
          | none => .error "flags not in bits or hex"
          | some tmp =>
            if 2 ^ nr_flags ≤ tmp then .error "Flags value exceeds bit width"
            else
              let flags := (List.range nr_flags).map
                (fun i => (((tmp / 2 ^ i) % 2 : ℕ) : ℤ))
              match parse_duration (seq_str.getD 1 []) with
              | .error e => .error e
              | .ok duration =>
                let opcodeE : Except String Opcode :=
                  if 2 < seq_str.length then
                    match opcodeOfName
                        ((stripL (seq_str.getD 2 [])).map Char.toUpper) with
                    | some oc => .ok oc
                    | none => .error "Invalid opcode"
                  else .ok .CONTINUE
                match opcodeE with
                | .error e => .error e
                | .ok opcode =>
                  let inst_data_str :=
                    if 3 < seq_str.length then stripL (seq_str.getD 3 [])
                    else ['0']
                  parseLines nr_flags rest addresses'
                    (processed ++
                      [⟨label, flags, duration, opcode, inst_data_str,
                        line_number⟩])

/-- Second pass of `code_to_instructions`: global LOOP/END_LOOP nesting
validation, rewriting each END_LOOP's operand string to its LOOP's index. -/
def loopNesting : List ProcLine → ℕ → List ℕ →
    Except String (List ProcLine × List ℕ)
  | [], _, nested => .ok ([], nested)
  | p :: rest, idx, nested =>
    match p.opcode with
    | .LOOP =>
        match loopNesting rest (idx + 1) (idx :: nested) with
        | .error e => .error e
        | .ok (r, st) => .ok (p :: r, st)
    | .END_LOOP =>
        match nested with
        | [] => .error "END_LOOP without matching LOOP"
        | top :: st' =>
            match loopNesting rest (idx + 1) st' with
            | .error e => .error e
            | .ok (r, st) =>
                .ok ({ p with inst_data_str := (Nat.repr top).toList } :: r, st)
    | _ =>
        match loopNesting rest (idx + 1) nested with
        | .error e => .error e
        | .ok (r, st) => .ok (p :: r, st)

/-- Third pass of `code_to_instructions`: operand resolution (label address
or literal integer) and `Instruction` construction. -/
def resolveLines (addresses : List (List Char × ℕ)) :
    List ProcLine → Except String (List Instruction)
  | [] => .ok []
  | p :: rest =>
    let inst_dataE : Except String ℤ :=
      match lookupAddr addresses p.inst_data_str with
      | some a => .ok (a : ℤ)
      | none =>
          match pyIntParse p.inst_data_str with
          | some v => .ok v
          | none => .error "Invalid inst_data"
    match inst_dataE with
    | .error e => .error e
    | .ok inst_data =>
        match resolveLines addresses rest with
        | .error e => .error e
        | .ok r =>
            .ok (⟨p.label.asString, p.flags, p.duration, p.opcode, inst_data⟩
              :: r)

/-- `read_code.code_to_instructions` (up to the `InstructionSequence`
construction, which only re-runs `unroll_duration_flags`): parse PulseBlaster
assembly text into instructions. -/
def code_to_instructions (code : String) (nr_flags : ℕ := 24) :
    Except String (List Instruction) :=
  if nr_flags = 0 then .error "nr_flags must be positive"
  else
    let ls := splitOnCharL '\n' (rstripL code.toList)
    let numbered := ls.enum.map (fun li => (li.1 + 1, li.2))
    match parseLines nr_flags numbered [] [] with
    | .error e => .error e
    | .ok (addresses, processed) =>
      match loopNesting processed 0 [] with
      | .error e => .error e
      | .ok (processed', nested) =>
        if nested ≠ [] then .error "LOOP without matching END_LOOP"
        else resolveLines addresses processed'

/-! ## Concrete example values used by the theorems -/

/-- The validated `Signal(frequency=10, channels=[0])` (50 % duty cycle by
default, high derived as 50 000 000 ns). -/
def sig10 : Signal := ⟨10, [0], 0, 1/2, 50000000, true, true⟩

/-- The validated `Signal(frequency=30, channels=[1])`. -/
def sig30 : Signal := ⟨30, [1], 0, 1/2, 16666666, true, true⟩

/-- The validated `Signal(frequency=4, channels=[1])`. -/
def sig4 : Signal := ⟨4, [1], 0, 1/2, 125000000, true, true⟩

/-- Channel state with channel 0 high and the three reserved channels
mirroring (24 channels). -/
def chsOn : List ℤ := [1, 0, 0, 0, 0, 0, 0, 0, 0, 0, 0, 0, 0, 0, 0, 0, 0, 0,
  0, 0, 0, 1, 1, 1]

/-- All-off channel state (24 channels). -/
def chsOff : List ℤ := List.replicate 24 0

theorem mkSignal_sig10 : mkSignal 10 [0] = .ok sig10 := by decide!

theorem mkSignal_sig30 : mkSignal 30 [1] = .ok sig30 := by decide!

theorem mkSignal_sig4 : mkSignal 4 [1] = .ok sig4 := by decide!

/-! ## C6 — parsing and unrolling the three-line LOOP program -/

/-- The three-line program of the claim. -/
def c6_code : String :=
  "0x000001, 100ns, LOOP, 5 \n 0x000000, 200ns, END_LOOP \n 0x000001, 100ns, STOP"

/-- Flags `0x000001` over 24 bits. -/
def c6_on : List ℤ := 1 :: List.replicate 23 0

/-- Flags `0x000000` over 24 bits. -/
def c6_off : List ℤ := List.replicate 24 0

/-- The three parsed instructions. -/
def c6_instrs : List Instruction :=
  [⟨"", c6_on, 100, .LOOP, 5⟩, ⟨"", c6_off, 200, .END_LOOP, 0⟩,
   ⟨"", c6_on, 100, .STOP, 0⟩]

/-- C6: parsing the three-line program
`0x000001, 100ns, LOOP, 5 / 0x000000, 200ns, END_LOOP / 0x000001, 100ns, STOP`
yields exactly 3 instructions, and unrolling yields exactly
2 × 5 + 1 = 11 flattened steps with branch-back index `none`. -/
theorem c6_parse_unroll :
    code_to_instructions c6_code = .ok c6_instrs ∧ c6_instrs.length = 3 ∧
    unroll_duration_flags 100 c6_instrs =
      some (.ok
        ([100, 200, 100, 200, 100, 200, 100, 200, 100, 200, 100],
         [c6_on, c6_off, c6_on, c6_off, c6_on, c6_off, c6_on, c6_off, c6_on,
          c6_off, c6_on],
         none)) ∧
    ([100, 200, 100, 200, 100, 200, 100, 200, 100, 200, 100] : List ℤ).length
      = 2 * 5 + 1 := by
  refine ⟨by decide!, by decide!, by decide!, by decide!⟩

/-! ## C7 — out-of-range BRANCH target -/

/-- Two instructions whose terminal BRANCH targets address 99, far outside
the instruction range. -/
def c7_instrs : List Instruction :=
  [⟨"", [1, 0], 100, .CONTINUE, 0⟩, ⟨"", [0, 0], 200, .BRANCH, 99⟩]

/-- C7 counterexample: unrolling an instruction list whose terminal BRANCH
has an out-of-range target does NOT raise a control-flow failure — it
completes normally with branch-back index `none` (refuting the claim that
it fails like an out-of-range JSR does). -/
theorem c7_counterexample :
    unroll_duration_flags 50 c7_instrs =
      some (.ok ([100, 200], [[1, 0], [0, 0]], none)) ∧
    ∀ e, unroll_duration_flags 50 c7_instrs ≠ some (.error e) := by
  refine ⟨by decide!, ?_⟩
  intro e h
  rw [show unroll_duration_flags 50 c7_instrs =
    some (.ok ([100, 200], [[1, 0], [0, 0]], none)) from by decide!] at h
  simp at h

/-- C7 amended: a visited BRANCH instruction whose target is out of range
(and hence distinct from every recorded in-range address) terminates the
unroll successfully with branch-back index `none`; only JSR targets are
range-checked. -/
theorem c7_amended (instrs : List Instruction) (fuel : ℕ) (idx : ℤ)
    (durs : List ℤ) (flgs : List (List ℤ)) (addrs subs : List ℤ)
    (loops : List LoopFrame)
    (hidx : 0 ≤ idx ∧ idx < (instrs.length : ℤ))
    (hop : (instrs.getD idx.toNat ⟨"", [], 0, .CONTINUE, 0⟩).opcode = .BRANCH)
    (htar : (instrs.getD idx.toNat ⟨"", [], 0, .CONTINUE, 0⟩).inst_data < 0 ∨
      (instrs.length : ℤ) ≤
        (instrs.getD idx.toNat ⟨"", [], 0, .CONTINUE, 0⟩).inst_data)
    (haddrs : ∀ a ∈ addrs, 0 ≤ a ∧ a < (instrs.length : ℤ)) :
    unroll_aux instrs (fuel + 1) idx durs flgs addrs subs loops =
      some (.ok
        (durs ++ [(instrs.getD idx.toNat ⟨"", [], 0, .CONTINUE, 0⟩).duration],
         flgs ++ [(instrs.getD idx.toNat ⟨"", [], 0, .CONTINUE, 0⟩).flags],
         none, addrs ++ [idx])) := by
  have hfind : (addrs ++ [idx]).findIdx?
      (fun a => a = (instrs.getD idx.toNat ⟨"", [], 0, .CONTINUE, 0⟩).inst_data)
      = none := by
    rw [List.findIdx?_eq_none_iff]
    intro x hx
    have hx' : 0 ≤ x ∧ x < (instrs.length : ℤ) := by
      rcases List.mem_append.mp hx with h | h
      · exact haddrs x h
      · rcases List.mem_singleton.mp h with rfl; exact hidx
    simp only [decide_eq_false_iff_not]
    rcases htar with h | h
    · intro hEq; rw [hEq] at hx'; exact absurd hx'.1 (by omega)
    · intro hEq; rw [hEq] at hx'; exact absurd hx'.2 (by omega)
  rw [unroll_aux, if_pos hidx]
  simp only [hop, hfind]

/-- Witness for `c7_amended` at the concrete two-instruction program. -/
theorem c7_amended_witness :
    unroll_aux c7_instrs (49 + 1) 1 [100] [[1, 0]] [0] [] [] =
      some (.ok ([100, 200], [[1, 0], [0, 0]], none, [0, 1])) :=
  c7_amended c7_instrs 49 1 [100] [[1, 0]] [0] [] [] (by decide) (by decide)
    (by decide) (by decide)

/-! ## C8 — case sensitivity of the duration unit token -/

/-- C8 counterexample: the duration token `100NS` (uppercase unit) is NOT
rejected — the parser lowercases the unit before lookup and accepts it,
both in `_parse_duration` and in a full instruction line. -/
theorem c8_counterexample :
    parse_duration "100NS".toList = .ok 100 ∧
    code_to_instructions "0x000001, 100NS, STOP" =
      .ok [⟨"", c6_on, 100, .STOP, 0⟩] := by
  refine ⟨by decide!, by decide!⟩

/-- C8 amended: the duration unit token is case-insensitive (it is
lowercased before lookup): every casing variant of `ns`, `us`, `ms`, `s`
is accepted with the same multiplier, genuinely unknown units are still
rejected, and the opcode token is also matched case-insensitively. -/
theorem c8_amended :
    parse_duration "100ns".toList = .ok 100 ∧
    parse_duration "100nS".toList = .ok 100 ∧
    parse_duration "100Ns".toList = .ok 100 ∧
    parse_duration "100NS".toList = .ok 100 ∧
    parse_duration "100us".toList = .ok 100000 ∧
    parse_duration "100uS".toList = .ok 100000 ∧
    parse_duration "100Us".toList = .ok 100000 ∧
    parse_duration "100US".toList = .ok 100000 ∧
    parse_duration "100ms".toList = .ok 100000000 ∧
    parse_duration "100mS".toList = .ok 100000000 ∧
    parse_duration "100Ms".toList = .ok 100000000 ∧
    parse_duration "100MS".toList = .ok 100000000 ∧
    parse_duration "100s".toList = .ok 100000000000 ∧
    parse_duration "100S".toList = .ok 100000000000 ∧
    parse_duration "100xs".toList = .error "Unsupported time unit" ∧
    parse_duration "100nsx".toList = .error "Unsupported time unit" ∧
    code_to_instructions "0x000001, 100ns, stop" =
      .ok [⟨"", c6_on, 100, .STOP, 0⟩] ∧
    code_to_instructions "0x000001, 100ns, Loop, 5 \n 0x000000, 200ns, end_loop" =
      .ok [⟨"", c6_on, 100, .LOOP, 5⟩, ⟨"", c6_off, 200, .END_LOOP, 0⟩] := by
  decide!

/-! ## C10 — the branch-back index is the earliest visit of the target -/

/-- C10: whenever the unroller returns a branch-back index, that index is
the position of the EARLIEST entry of the visited-address list holding the
branch target: no strictly earlier position holds the same original
address. -/
theorem c10_branch_back_earliest :
    ∀ (fuel : ℕ) (instrs : List Instruction) (idx : ℤ) (durs : List ℤ)
      (flgs : List (List ℤ)) (addrs subs : List ℤ) (loops : List LoopFrame)
      (D : List ℤ) (F : List (List ℤ)) (i : ℕ) (A : List ℤ),
      unroll_aux instrs fuel idx durs flgs addrs subs loops =
        some (.ok (D, F, some i, A)) →
      i < A.length ∧ ∀ j, j < i → A.get? j ≠ A.get? i := by
  intro fuel
  induction fuel with
  | zero =>
      intro instrs idx durs flgs addrs subs loops D F i A h
      simp [unroll_aux] at h
  | succ n ih =>
      intro instrs idx durs flgs addrs subs loops D F i A h
      rw [unroll_aux] at h
      by_cases hc : 0 ≤ idx ∧ idx < (instrs.length : ℤ)
      · rw [if_pos hc] at h
        simp only [] at h
        split at h
        · -- JSR
          split at h
          · exact ih _ _ _ _ _ _ _ _ _ _ _ h
          · simp at h
        · -- RTS
          split at h
          · simp at h
          · exact ih _ _ _ _ _ _ _ _ _ _ _ h
        · -- LOOP
          split at h
          · simp at h
          · exact ih _ _ _ _ _ _ _ _ _ _ _ h
        · -- END_LOOP
          split at h
          · simp at h
          · split at h
            · exact ih _ _ _ _ _ _ _ _ _ _ _ h
            · exact ih _ _ _ _ _ _ _ _ _ _ _ h
        · -- STOP
          simp at h
        · -- BRANCH
          simp only [Option.some.injEq] at h
          injection h with h
          injection h with hD h
          injection h with hF h
          injection h with hbi hA
          subst hA
          rcases List.findIdx?_eq_some_iff_getElem.mp hbi with ⟨hlen, hp, hall⟩
          refine ⟨hlen, fun j hj => ?_⟩
          have hji := Nat.lt_trans hj hlen
          rw [List.get?_eq_get hlen, List.get?_eq_get hji]
          intro hEq
          have hEq' := Option.some.inj hEq
          have hgj : (addrs ++ [idx])[j] = (addrs ++ [idx])[i] := by
            simpa [List.get_eq_getElem] using hEq'
          exact absurd (by rw [hgj]; exact hp) (hall j hj)
        · -- CONTINUE / LONG_DELAY / WAIT
          exact ih _ _ _ _ _ _ _ _ _ _ _ h
      · rw [if_neg hc] at h
        simp at h

/-- Witness for `c10_branch_back_earliest`: a LOOP body visited twice, with
the terminal BRANCH targeting address 1 (recorded at flattened positions 1
and 3); the branch-back index is 1, the earliest. -/
theorem c10_witness :
    1 < ([0, 1, 0, 1, 2] : List ℤ).length ∧
    ∀ j, j < 1 →
      ([0, 1, 0, 1, 2] : List ℤ).get? j ≠ ([0, 1, 0, 1, 2] : List ℤ).get? 1 :=
  c10_branch_back_earliest 50
    [⟨"", [1], 7, .LOOP, 2⟩, ⟨"", [0], 8, .END_LOOP, 0⟩, ⟨"", [0], 9, .BRANCH, 1⟩]
    0 [] [] [] [] [] [7, 8, 7, 8, 9] [[1], [0], [1], [0], [0]] 1 [0, 1, 0, 1, 2]
    (by decide)

/-! ## C5 — Signal construction validation -/

/-- The validation condition `1/f <= high * 1e-9` is "high ≥ period" with
the period expressed in nanoseconds. -/
theorem high_cond_iff (f : ℚ) (h : ℤ) :
    (1 / f ≤ (h : ℚ) * (1 / 1000000000)) ↔ (1000000000 / f ≤ (h : ℚ)) := by
  have h9 : (0 : ℚ) < 1000000000 := by norm_num
  constructor
  · intro hh
    calc (1000000000 : ℚ) / f = 1000000000 * (1 / f) := by ring
    _ ≤ 1000000000 * ((h : ℚ) * (1 / 1000000000)) :=
        mul_le_mul_of_nonneg_left hh (le_of_lt h9)
    _ = (h : ℚ) := by ring
  · intro hh
    calc (1 : ℚ) / f = (1000000000 / f) * (1 / 1000000000) := by ring
    _ ≤ (h : ℚ) * (1 / 1000000000) :=
        mul_le_mul_of_nonneg_right hh (by norm_num)

/-- Characterization of a successful `Signal` construction. -/
theorem mkSignal_ok_iff (frequency : ℚ) (channels : List ℤ) (offset : ℤ)
    (duty_cycle : ℚ) (high : ℤ) (active_high : Bool) (s : Signal) :
    mkSignal frequency channels offset duty_cycle high active_high = .ok s ↔
      (¬ frequency ≤ 0 ∧ ¬ offset < 0 ∧ ¬ high < 0 ∧
       (0 ≤ duty_cycle ∧ duty_cycle ≤ 1) ∧ channels ≠ [] ∧
       ¬ (∃ ch ∈ channels, ch < 0) ∧
       ¬ (1 / frequency ≤
          (signalHighValue frequency duty_cycle high : ℚ) * (1 / 1000000000)) ∧
       s = ⟨frequency, channels, offset,
            signalDutyValue frequency duty_cycle high,
            signalHighValue frequency duty_cycle high, active_high,
            decide (high = 0)⟩) := by
  constructor
  · intro hs
    simp only [mkSignal] at hs
    by_cases h1 : frequency ≤ 0
    · rw [if_pos h1] at hs; exact absurd hs (by simp)
    rw [if_neg h1] at hs
    by_cases h2 : offset < 0
    · rw [if_pos h2] at hs; exact absurd hs (by simp)
    rw [if_neg h2] at hs
    by_cases h3 : high < 0
    · rw [if_pos h3] at hs; exact absurd hs (by simp)
    rw [if_neg h3] at hs
    by_cases h4 : 0 ≤ duty_cycle ∧ duty_cycle ≤ 1
    case neg => rw [if_pos h4] at hs; exact absurd hs (by simp)
    rw [if_neg (not_not_intro h4)] at hs
    by_cases h5 : channels = []
    · rw [if_pos h5] at hs; exact absurd hs (by simp)
    rw [if_neg h5] at hs
    by_cases h6 : channels.any (fun ch => ch < 0)
    · rw [if_pos h6] at hs; exact absurd hs (by simp)
    rw [if_neg h6] at hs
    by_cases h7 : 1 / frequency ≤
        (signalHighValue frequency duty_cycle high : ℚ) * (1 / 1000000000)
    · rw [if_pos h7] at hs; exact absurd hs (by simp)
    rw [if_neg h7] at hs
    refine ⟨h1, h2, h3, h4, h5, ?_, h7, (Except.ok.inj hs).symm⟩
    rintro ⟨ch, hm, hlt⟩
    apply h6
    simp only [List.any_eq_true, decide_eq_true_eq]
    exact ⟨ch, hm, hlt⟩
  · rintro ⟨n1, n2, n3, hd, n5, n6, n7, rfl⟩
    simp only [mkSignal]
    rw [if_neg n1, if_neg n2, if_neg n3, if_neg (not_not_intro hd), if_neg n5,
      if_neg (fun hc => by
        simp only [List.any_eq_true, decide_eq_true_eq] at hc
        rcases hc with ⟨ch, hm, hlt⟩
        exact n6 ⟨ch, hm, hlt⟩),
      if_neg n7]

/-- C5: constructing a `Signal` fails exactly when the frequency is
non-positive, the offset, high-time, or a channel id is negative, the
channel set is empty, the duty cycle lies outside [0, 1], or the (given or
duty-cycle-derived) high-time reaches the period (1e9/frequency ns); and
every successfully constructed `Signal` has high-time strictly below its
period.  (Failure is a returned `Except.error`: no partially constructed
value is observable.) -/
theorem c5_signal_validation (frequency : ℚ) (channels : List ℤ) (offset : ℤ)
    (duty_cycle : ℚ) (high : ℤ) (active_high : Bool) :
    ((∃ s, mkSignal frequency channels offset duty_cycle high active_high
        = .ok s) ↔
      ¬ (frequency ≤ 0 ∨ offset < 0 ∨ high < 0 ∨
         duty_cycle < 0 ∨ 1 < duty_cycle ∨ channels = [] ∨
         (∃ ch ∈ channels, ch < 0) ∨
         1000000000 / frequency ≤
           (signalHighValue frequency duty_cycle high : ℚ))) ∧
    (∀ s, mkSignal frequency channels offset duty_cycle high active_high
        = .ok s →
      (s.high : ℚ) < 1000000000 / s.frequency) := by
  constructor
  · constructor
    · rintro ⟨s, hs⟩
      rw [mkSignal_ok_iff] at hs
      obtain ⟨n1, n2, n3, ⟨d0, d1⟩, n5, n6, n7, _⟩ := hs
      intro hd
      rcases hd with h | h | h | h | h | h | h | h
      · exact n1 h
      · exact n2 h
      · exact n3 h
      · exact absurd d0 (not_le.mpr h)
      · exact absurd d1 (not_le.mpr h)
      · exact n5 h
      · exact n6 h
      · exact n7 ((high_cond_iff frequency _).mpr h)
    · intro hnot
      push_neg at hnot
      obtain ⟨h1, h2, h3, h4, h5, h6, h7, h8⟩ := hnot
      refine ⟨_, (mkSignal_ok_iff _ _ _ _ _ _ _).mpr
        ⟨not_le.mpr h1, not_lt.mpr h2, not_lt.mpr h3, ⟨h4, h5⟩, h6, ?_, ?_,
         rfl⟩⟩
      · rintro ⟨ch, hm, hlt⟩
        exact absurd hlt (not_lt.mpr (h7 ch hm))
      · exact fun hc =>
          absurd ((high_cond_iff frequency _).mp hc) (not_le.mpr h8)
  · intro s hs
    rw [mkSignal_ok_iff] at hs
    obtain ⟨n1, n2, n3, _, _, _, n7, rfl⟩ := hs
    exact not_le.mp (fun hc => n7 ((high_cond_iff frequency _).mpr hc))

/-- Witness for `c5_signal_validation` at frequency 10 Hz, channel 0, duty
cycle 1/2, high unset. -/
theorem c5_witness :
    (∃ s, mkSignal 10 [0] 0 (1/2) 0 true = .ok s) ∧
    (sig10.high : ℚ) < 1000000000 / sig10.frequency :=
  ⟨(c5_signal_validation 10 [0] 0 (1/2) 0 true).1.mpr (by decide!),
   (c5_signal_validation 10 [0] 0 (1/2) 0 true).2 sig10 (by decide!)⟩

/-! ## C1 — cycle count and total duration of the generated program -/

/-- Each simulated cycle adds exactly one quantum to the total of the
run-length-compressed duration list. -/
theorem rll_append_sum (q : ℤ) (t : List ℤ) (c : List (List ℤ))
    (chs : List ℤ) : (rll_append q t c chs).1.sum = t.sum + q := by
  unfold rll_append
  split_ifs with h1 h2
  · simp
  · rcases t with _ | ⟨x, xs⟩
    · simp
    · have ht : (x :: xs : List ℤ) ≠ [] := by simp
      have hd := List.dropLast_append_getLast ht
      calc ((x :: xs).dropLast ++ [(x :: xs).getLastD 0 + q]).sum
          = (x :: xs).dropLast.sum + ((x :: xs).getLastD 0 + q) := by simp
        _ = (x :: xs).dropLast.sum + ((x :: xs).getLast ht + q) := by
            rw [List.getLastD_eq_getLast?, List.getLast?_eq_getLast _ ht]
            rfl
        _ = ((x :: xs).dropLast.sum + (x :: xs).getLast ht) + q := by ring
        _ = ((x :: xs).dropLast ++ [(x :: xs).getLast ht]).sum + q := by simp
        _ = (x :: xs).sum + q := by rw [hd]
  · simp

/-- `rll_append` keeps the duration and state lists the same length. -/
theorem rll_append_len (q : ℤ) (t : List ℤ) (c : List (List ℤ))
    (chs : List ℤ) (h : t.length = c.length) :
    (rll_append q t c chs).1.length = (rll_append q t c chs).2.length := by
  unfold rll_append
  split_ifs with h1 h2
  · simp [h]
  · rcases t with _ | ⟨x, xs⟩
    · rcases c with _ | _
      · simp at h1
      · simp at h
    · simp at h ⊢
      omega
  · simp [h]

/-- Unfolding one cycle of the compiler's main loop. -/
theorem generate_fold_succ (pulses masks : List Pulse)
    (signal_channels active_low : List ℤ) (q nr_channels res : ℤ) (n : ℕ) :
    generate_fold pulses masks signal_channels active_low q nr_channels res
        (n + 1) =
      compile_cycle pulses masks signal_channels active_low q nr_channels res
        (generate_fold pulses masks signal_channels active_low q nr_channels
          res n) (n : ℤ) := by
  unfold generate_fold
  rw [List.range_succ, List.foldl_append]
  rfl

/-- The `t` list of the main loop sums to (number of cycles) × quantum. -/
theorem generate_fold_sum (pulses masks : List Pulse)
    (signal_channels active_low : List ℤ) (q nr_channels res : ℤ) :
    ∀ n : ℕ,
      (generate_fold pulses masks signal_channels active_low q nr_channels
        res n).2.2.1.sum = (n : ℤ) * q
  | 0 => by simp [generate_fold]
  | n + 1 => by
      rw [generate_fold_succ]
      unfold compile_cycle
      simp only []
      rw [rll_append_sum,
        generate_fold_sum pulses masks signal_channels active_low q
          nr_channels res n]
      push_cast
      ring

/-- The main loop's duration and state lists have equal length. -/
theorem generate_fold_len (pulses masks : List Pulse)
    (signal_channels active_low : List ℤ) (q nr_channels res : ℤ) :
    ∀ n : ℕ,
      (generate_fold pulses masks signal_channels active_low q nr_channels
        res n).2.2.1.length =
      (generate_fold pulses masks signal_channels active_low q nr_channels
        res n).2.2.2.length
  | 0 => by simp [generate_fold]
  | n + 1 => by
      rw [generate_fold_succ]
      unfold compile_cycle
      simp only []
      exact rll_append_len _ _ _ _
        (generate_fold_len pulses masks signal_channels active_low q
          nr_channels res n)

/-- The durations of the emitted CONTINUE instructions are exactly the
compressed `t` list. -/
theorem map_duration_zip (t : List ℤ) (c : List (List ℤ))
    (h : t.length = c.length) :
    ((List.zip t c).map (fun tc =>
        Instruction.mk "" tc.2 tc.1 Opcode.CONTINUE 0)).map (·.duration)
      = t := by
  rw [List.map_map]
  rw [show ((fun i : Instruction => i.duration) ∘
      (fun tc : ℤ × List ℤ => Instruction.mk "" tc.2 tc.1 Opcode.CONTINUE 0))
    = Prod.fst from rfl]
  exact List.map_fst_zip t c (le_of_eq h)

/-- The total duration of the instruction list emitted for a given
coarsening factor: `int(duration/(quantum·gcd))` quanta in all — the loop
simulates `int(duration/(quantum·gcd)) − 1` cycles and the terminal BRANCH
carries one more quantum. -/
theorem generate_with_gcd_duration_sum (gcd_cycles : ℤ)
    (pulses masks : List Pulse) (signals : List Signal)
    (signal_channels : List ℤ) (duration : ℤ)
    (min_instruction_len nr_channels reserved_channels : ℤ) :
    ((generate_with_gcd gcd_cycles pulses masks signals signal_channels
        duration min_instruction_len nr_channels reserved_channels).map
      (·.duration)).sum =
      (((pyTrunc ((duration : ℚ) /
          ((min_instruction_len * gcd_cycles : ℤ) : ℚ)) - 1).toNat : ℤ) + 1) *
        (min_instruction_len * gcd_cycles) := by
  unfold generate_with_gcd generate_loop
  simp only []
  rw [List.map_append, List.sum_append,
    map_duration_zip _ _ (generate_fold_len _ _ _ _ _ _ _ _),
    generate_fold_sum]
  push_cast
  simp only [List.map_cons, List.map_nil, List.sum_cons, List.sum_nil]
  ring

/-- The instruction list the compiler produces for a single 10 Hz signal
with 50 % duty cycle, no offset and quantum 20 ns: gcd coarsening rescales
the quantum to 50 000 000 ns, so a single simulated cycle (high on channel
0) precedes the terminal BRANCH. -/
def c1_output : List Instruction :=
  [⟨"", chsOn, 50000000, .CONTINUE, 0⟩, ⟨"", chsOff, 50000000, .BRANCH, 0⟩]

/-- C1 counterexample: for the single 10 Hz signal with 50 % duty cycle, no
offset and quantum 20 ns, the total pre-branch duration of the generated
instructions is 50 000 000 ns — NOT within one 20 ns quantum of
100 000 000 ns — and the per-cycle simulation runs
`int(duration/(quantum·gcd)) − 1 = 1` iteration, not
`duration/quantum = 5 000 000`. -/
theorem c1_counterexample :
    generate_repeating_pulses [sig10] = .ok c1_output ∧
    generate_plan [sig10] = .ok ([sig10], [], [10], 100000000, 5000000) ∧
    ((c1_output.dropLast.map (·.duration)).sum = 50000000 ∧
      ¬ ((100000000 - 20 : ℤ) ≤ 50000000)) ∧
    (pyTrunc ((100000000 : ℚ) / ((20 * 2500000 : ℤ) : ℚ)) - 1 = 1 ∧
      (1 : ℤ) ≠ 5000000) := by
  refine ⟨by decide!, by decide!, ⟨by decide!, by decide⟩, by decide!, by decide⟩

/-- C1 amended: for every coarsening factor the emitted program's total
duration is `int(duration/(quantum·gcd))` rescaled quanta — the loop runs
`int(duration/(quantum·gcd)) − 1` iterations and the terminal BRANCH adds
one more; for the 10 Hz example the compiler emits exactly one pre-branch
instruction, high on channel 0, of 50 000 000 ns (= duration − one
rescaled quantum), a single contiguous high run, and the total duration
including the BRANCH is 100 000 000 ns. -/
theorem c1_amended :
    (∀ (gcd_cycles : ℤ) (pulses masks : List Pulse) (signals : List Signal)
      (signal_channels : List ℤ)
      (duration min_instruction_len nr_channels reserved_channels : ℤ),
      ((generate_with_gcd gcd_cycles pulses masks signals signal_channels
          duration min_instruction_len nr_channels reserved_channels).map
        (·.duration)).sum =
        (((pyTrunc ((duration : ℚ) /
            ((min_instruction_len * gcd_cycles : ℤ) : ℚ)) - 1).toNat : ℤ) + 1)
          * (min_instruction_len * gcd_cycles)) ∧
    generate_repeating_pulses [sig10] = .ok c1_output ∧
    (c1_output.dropLast.map (·.duration)).sum = 100000000 - 50000000 ∧
    (c1_output.map (·.duration)).sum = 100000000 ∧
    c1_output.dropLast.map (·.flags) = [chsOn] := by
  refine ⟨generate_with_gcd_duration_sum, by decide!, by decide!, by decide!,
    by decide!⟩

/-! ## C3 — commensurability of the synchronized duration -/

/-- The quantum-rounded periods computed by the synchronizer's LCM branch:
`round(1e9/f)`, floored to a multiple of the quantum, rounded to the
nearest multiple of `n_round × quantum`. -/
def sync_periods (frequencies : List ℚ) (min_instruction_len n_round : ℤ) :
    List ℤ :=
  frequencies.map (fun f =>
    round_to_nearest_n_ns
      (pyRound (1 / f * 1000000000) -
        pyRound (1 / f * 1000000000) % min_instruction_len)
      (n_round * min_instruction_len))

/-- Every member of a list divides the list's lcm. -/
theorem dvd_listLcm {x : ℤ} : ∀ {xs : List ℤ}, x ∈ xs → x ∣ listLcm xs := by
  intro xs
  induction xs with
  | nil => intro h; simp at h
  | cons y ys ih =>
      intro h
      unfold listLcm
      rw [List.foldr_cons]
      rcases List.mem_cons.mp h with rfl | hmem
      · exact Int.dvd_lcm_left
      · exact dvd_trans (ih hmem) Int.dvd_lcm_right

/-- Characterization of the synchronizer's LCM branch: when the rounded
frequencies share no common divisor equal to one of them and the lcm of the
rounded periods is below the ceiling, the duration is that lcm and every
returned frequency is `1e9 / p` for its rounded period `p`. -/
theorem minimum_duration_lcm_branch (pulses masking_pulses : List Signal)
    (min_instruction_len : ℤ) (n_round : ℤ) (n_digits : ℕ) (t_max : ℤ)
    (hgcd : ¬ listGcd ((pulses.map (·.frequency) ++
        masking_pulses.map (·.frequency)).map
          (fun f => pyRound (f * 10 ^ n_digits))) ∈
      ((pulses.map (·.frequency) ++ masking_pulses.map (·.frequency)).map
        (fun f => pyRound (f * 10 ^ n_digits))))
    (hmax : listLcm (sync_periods
        (pulses.map (·.frequency) ++ masking_pulses.map (·.frequency))
        min_instruction_len n_round) < t_max) :
    minimum_duration_and_num_cycles pulses masking_pulses none
        min_instruction_len n_round n_digits t_max =
      .ok (listLcm (sync_periods
            (pulses.map (·.frequency) ++ masking_pulses.map (·.frequency))
            min_instruction_len n_round),
        pyTrunc ((listLcm (sync_periods
            (pulses.map (·.frequency) ++ masking_pulses.map (·.frequency))
            min_instruction_len n_round) : ℚ) / (min_instruction_len : ℚ)),
        (sync_periods
            (pulses.map (·.frequency) ++ masking_pulses.map (·.frequency))
            min_instruction_len n_round).map
          (fun p : ℤ => (1000000000 : ℚ) / (p : ℚ))) := by
  unfold minimum_duration_and_num_cycles
  simp only []
  rw [if_neg hgcd]
  rw [List.map_map, List.map_map]
  rw [show List.map
      (((fun p => round_to_nearest_n_ns p (n_round * min_instruction_len))
        ∘ (fun p => p - p % min_instruction_len)) ∘
          (fun f : ℚ => pyRound (1 / f * 1000000000)))
      (pulses.map (·.frequency) ++ masking_pulses.map (·.frequency))
    = sync_periods
        (pulses.map (·.frequency) ++ masking_pulses.map (·.frequency))
        min_instruction_len n_round from rfl]
  rw [if_neg (not_le.mpr hmax)]

/-- C3 counterexample: for 10 Hz and 30 Hz the synchronizer takes its
common-divisor branch and returns duration 100 000 000 ns with the 30 Hz
signal rescaled to 1e9/33 333 340 Hz — but 33 333 340 does not divide
100 000 000 (nor does 1 666 667 cycles divide the 5 000 000-cycle count),
so the rescaled frequency is NOT exactly commensurate with the duration. -/
theorem c3_counterexample :
    minimum_duration_and_num_cycles [sig10, sig30] [] none 20 =
      .ok (100000000, 5000000, [10, 50000000/1666667]) ∧
    (1000000000 : ℚ) / (50000000/1666667 : ℚ) = ((33333340 : ℤ) : ℚ) ∧
    ¬ ((33333340 : ℤ) ∣ 100000000) ∧ ¬ ((1666667 : ℤ) ∣ 5000000) := by
  refine ⟨by decide!, by decide!, by decide, by decide⟩

/-- C3 amended: in the synchronizer's LCM branch (rounded frequencies with
no common divisor equal to one of them), the returned duration is an exact
integer multiple of every rescaled period: each returned frequency is
`1e9 / p` for a quantum-rounded period `p` dividing the duration.  In the
common-divisor branch exact commensurability can fail (10 Hz with 30 Hz). -/
theorem c3_amended (pulses masking_pulses : List Signal)
    (min_instruction_len : ℤ) (n_round : ℤ) (n_digits : ℕ) (t_max : ℤ)
    (hgcd : ¬ listGcd ((pulses.map (·.frequency) ++
        masking_pulses.map (·.frequency)).map
          (fun f => pyRound (f * 10 ^ n_digits))) ∈
      ((pulses.map (·.frequency) ++ masking_pulses.map (·.frequency)).map
        (fun f => pyRound (f * 10 ^ n_digits))))
    (hmax : listLcm (sync_periods
        (pulses.map (·.frequency) ++ masking_pulses.map (·.frequency))
        min_instruction_len n_round) < t_max) :
    ∃ L N fs,
      minimum_duration_and_num_cycles pulses masking_pulses none
          min_instruction_len n_round n_digits t_max = .ok (L, N, fs) ∧
      ∀ f ∈ fs, ∃ p : ℤ, f = (1000000000 : ℚ) / (p : ℚ) ∧ p ∣ L := by
  refine ⟨_, _, _,
    minimum_duration_lcm_branch pulses masking_pulses min_instruction_len
      n_round n_digits t_max hgcd hmax, ?_⟩
  intro f hf
  rcases List.mem_map.mp hf with ⟨p, hp, hpe⟩
  exact ⟨p, hpe.symm, dvd_listLcm hp⟩

/-- Witness for `c3_amended` at 10 Hz and 4 Hz (rounded frequencies 100000
and 40000, gcd 20000, LCM branch; periods 1e8 and 2.5e8, lcm 5e8). -/
theorem c3_amended_witness :
    ∃ L N fs,
      minimum_duration_and_num_cycles [sig10, sig4] [] none 20 =
        .ok (L, N, fs) ∧
      ∀ f ∈ fs, ∃ p : ℤ, f = (1000000000 : ℚ) / (p : ℚ) ∧ p ∣ L :=
  c3_amended [sig10, sig4] [] 20 5000 4 10000000000 (by decide!) (by decide!)

/-! ## C2 — masking semantics -/

/-- Closed form of a pulse's elapsed counter at the start of cycle `n`:
zero before the offset is reached, `(n - offset) mod period` afterwards. -/
def elapsed_closed (n : ℤ) (p : Pulse) : ℤ :=
  if n < p.offset then 0 else (n - p.offset) % p.period

/-- The primary elapsed-counter list entering cycle `n` of the simulation. -/
def elapsed_after (pulses : List Pulse) : ℕ → List ℤ
  | 0 => List.replicate pulses.length 0
  | n + 1 => (calculate_resets (elapsed_after pulses n) pulses (n : ℤ)).2

/-- The masking elapsed-counter list entering cycle `n` of the simulation. -/
def mask_elapsed_after (base : List ℤ) (masks : List Pulse) : ℕ → List ℤ
  | 0 => List.replicate masks.length 0
  | n + 1 =>
      (calculate_resets_masking (mask_elapsed_after base masks n) base masks
        (n : ℤ)).2

/-- The union of channels active from the primary pulses at cycle `n`. -/
def active_at (pulses : List Pulse) (n : ℕ) : List ℤ :=
  (calculate_resets (elapsed_after pulses n) pulses (n : ℤ)).1

/-- The channels surviving the masking pulses at cycle `n`. -/
def mask_active_at (base : List ℤ) (masks : List Pulse) (n : ℕ) : List ℤ :=
  (calculate_resets_masking (mask_elapsed_after base masks n) base masks
    (n : ℤ)).1

/-- The gated channel set of cycle `n`: primary ∩ masking-surviving. -/
def gated_at (pulses : List Pulse) (base : List ℤ) (masks : List Pulse)
    (n : ℕ) : List ℤ :=
  (active_at pulses n).filter (fun ch => ch ∈ mask_active_at base masks n)

/-- The elapsed-counter update of `calculate_resets` over aligned lists. -/
theorem calculate_resets_snd_map (cyc : ℤ) (f : Pulse → ℤ) :
    ∀ ps : List Pulse,
      (calculate_resets (ps.map f) ps cyc).2 =
        ps.map (fun p =>
          if p.offset ≤ cyc then (f p + 1) % p.period else f p)
  | [] => rfl
  | p :: ps => by
      simp only [List.map_cons, calculate_resets]
      by_cases h : p.offset ≤ cyc
      · rw [if_pos h, if_pos h]
        simp only [List.cons.injEq]
        exact ⟨trivial, calculate_resets_snd_map cyc f ps⟩
      · rw [if_neg h, if_neg h]
        simp only [List.cons.injEq]
        exact ⟨trivial, calculate_resets_snd_map cyc f ps⟩

/-- The elapsed-counter update of `calculate_resets_masking` over aligned
lists (independent of the base channel set). -/
theorem calculate_resets_masking_snd_map (cyc : ℤ) (f : Pulse → ℤ) :
    ∀ (ps : List Pulse) (base : List ℤ),
      (calculate_resets_masking (ps.map f) base ps cyc).2 =
        ps.map (fun p =>
          if p.offset ≤ cyc then (f p + 1) % p.period else f p)
  | [], _ => rfl
  | p :: ps, base => by
      simp only [List.map_cons, calculate_resets_masking]
      by_cases h : p.offset ≤ cyc
      · rw [if_pos h, if_pos h]
        simp only [List.cons.injEq]
        exact ⟨trivial, calculate_resets_masking_snd_map cyc f ps _⟩
      · rw [if_neg h, if_neg h]
        simp only [List.cons.injEq]
        exact ⟨trivial, calculate_resets_masking_snd_map cyc f ps _⟩

/-- Stepping the closed form: advancing the counter at cycle `n` yields the
closed form at `n + 1`. -/
theorem elapsed_closed_step (n : ℤ) (p : Pulse) (hper : 0 < p.period) :
    (if p.offset ≤ n then (elapsed_closed n p + 1) % p.period
     else elapsed_closed n p) = elapsed_closed (n + 1) p := by
  unfold elapsed_closed
  by_cases h : p.offset ≤ n
  · rw [if_pos h, if_neg (not_lt.mpr h), if_neg (by omega)]
    have key : ∀ a : ℤ, (a % p.period + 1) % p.period = (a + 1) % p.period := by
      intro a
      conv_rhs => rw [show a + 1 = (a % p.period + 1) +
        p.period * (a / p.period) from by rw [Int.emod_def]; ring]
      rw [Int.add_mul_emod_self_left]
    rw [key]
    congr 1
    ring
  · rw [if_neg h, if_pos (not_le.mp h)]
    by_cases h2 : n + 1 < p.offset
    · rw [if_pos h2]
    · have : p.offset = n + 1 := by omega
      rw [if_neg h2, this]
      simp

/-- Closed form of the primary elapsed counters. -/
theorem elapsed_after_eq (pulses : List Pulse)
    (hper : ∀ p ∈ pulses, 0 < p.period)
    (hoff : ∀ p ∈ pulses, 0 ≤ p.offset) :
    ∀ n : ℕ, elapsed_after pulses n = pulses.map (elapsed_closed (n : ℤ))
  | 0 => by
      unfold elapsed_after
      rw [show pulses.map (elapsed_closed ((0 : ℕ) : ℤ))
          = pulses.map (fun _ => 0) from
        List.map_congr_left (fun p hp => by
          unfold elapsed_closed
          by_cases h : ((0 : ℕ) : ℤ) < p.offset
          · rw [if_pos h]
          · rw [if_neg h]
            have : p.offset = 0 := le_antisymm (by exact_mod_cast not_lt.mp h)
              (hoff p hp)
            simp [this])]
      simp [List.map_const']
  | n + 1 => by
      unfold elapsed_after
      rw [elapsed_after_eq pulses hper hoff n, calculate_resets_snd_map]
      rw [show ((n + 1 : ℕ) : ℤ) = (n : ℤ) + 1 from by push_cast; ring]
      exact List.map_congr_left (fun p hp =>
        elapsed_closed_step (n : ℤ) p (hper p hp))

/-- Closed form of the masking elapsed counters: they advance exactly as
the primary ones. -/
theorem mask_elapsed_after_eq (base : List ℤ) (masks : List Pulse)
    (hper : ∀ p ∈ masks, 0 < p.period)
    (hoff : ∀ p ∈ masks, 0 ≤ p.offset) :
    ∀ n : ℕ, mask_elapsed_after base masks n
      = masks.map (elapsed_closed (n : ℤ))
  | 0 => by
      unfold mask_elapsed_after
      rw [show masks.map (elapsed_closed ((0 : ℕ) : ℤ))
          = masks.map (fun _ => 0) from
        List.map_congr_left (fun p hp => by
          unfold elapsed_closed
          by_cases h : ((0 : ℕ) : ℤ) < p.offset
          · rw [if_pos h]
          · rw [if_neg h]
            have : p.offset = 0 := le_antisymm (by exact_mod_cast not_lt.mp h)
              (hoff p hp)
            simp [this])]
      simp [List.map_const']
  | n + 1 => by
      unfold mask_elapsed_after
      rw [mask_elapsed_after_eq base masks hper hoff n,
        calculate_resets_masking_snd_map]
      rw [show ((n + 1 : ℕ) : ℤ) = (n : ℤ) + 1 from by push_cast; ring]
      exact List.map_congr_left (fun p hp =>
        elapsed_closed_step (n : ℤ) p (hper p hp))

/-- Membership in the primary active-channel union. -/
theorem mem_calculate_resets_fst (cyc : ℤ) (f : Pulse → ℤ) (c : ℤ) :
    ∀ ps : List Pulse,
      (c ∈ (calculate_resets (ps.map f) ps cyc).1 ↔
        ∃ p ∈ ps, p.offset ≤ cyc ∧ f p < p.high ∧ c ∈ p.channels)
  | [] => by simp [calculate_resets]
  | p :: ps => by
      simp only [List.map_cons, calculate_resets]
      by_cases h : p.offset ≤ cyc
      · rw [if_pos h]
        simp only [List.mem_append, mem_calculate_resets_fst cyc f c ps,
          List.mem_cons]
        constructor
        · rintro (hc | ⟨q, hq, h1, h2, h3⟩)
          · by_cases hhigh : f p < p.high
            · rw [if_pos hhigh] at hc
              exact ⟨p, Or.inl rfl, h, hhigh, hc⟩
            · rw [if_neg hhigh] at hc
              simp at hc
          · exact ⟨q, Or.inr hq, h1, h2, h3⟩
        · rintro ⟨q, hq | hq, h1, h2, h3⟩
          · subst hq
            exact Or.inl (by rw [if_pos h2]; exact h3)
          · exact Or.inr ⟨q, hq, h1, h2, h3⟩
      · rw [if_neg h]
        simp only [mem_calculate_resets_fst cyc f c ps, List.mem_cons]
        constructor
        · rintro ⟨q, hq, h1, h2, h3⟩
          exact ⟨q, Or.inr hq, h1, h2, h3⟩
        · rintro ⟨q, hq | hq, h1, h2, h3⟩
          · subst hq; exact absurd h1 h
          · exact ⟨q, hq, h1, h2, h3⟩

/-- Membership in the masking-survivor set: a channel of the base set
survives iff no masking pulse whose offset has been reached and whose
elapsed counter has reached or exceeded its high value lists it. -/
theorem mem_calculate_resets_masking_fst (cyc : ℤ) (f : Pulse → ℤ) (c : ℤ) :
    ∀ (ps : List Pulse) (base : List ℤ),
      (c ∈ (calculate_resets_masking (ps.map f) base ps cyc).1 ↔
        c ∈ base ∧
          ∀ p ∈ ps, ¬ (p.offset ≤ cyc ∧ p.high ≤ f p ∧ c ∈ p.channels))
  | [], base => by simp [calculate_resets_masking]
  | p :: ps, base => by
      simp only [List.map_cons, calculate_resets_masking]
      by_cases h : p.offset ≤ cyc
      · rw [if_pos h]
        simp only [mem_calculate_resets_masking_fst cyc f c ps]
        by_cases hhigh : p.high ≤ f p
        · rw [if_pos hhigh]
          simp only [List.mem_filter, decide_not, Bool.not_eq_true',
            decide_eq_false_iff_not, List.forall_mem_cons]
          constructor
          · rintro ⟨⟨hb, hnc⟩, hrest⟩
            exact ⟨hb, fun hcon => hnc hcon.2.2, hrest⟩
          · rintro ⟨hb, hhead, hrest⟩
            exact ⟨⟨hb, fun hc => hhead ⟨h, hhigh, hc⟩⟩, hrest⟩
        · rw [if_neg hhigh]
          simp only [List.forall_mem_cons]
          constructor
          · rintro ⟨hb, hrest⟩
            exact ⟨hb, fun hcon => hhigh hcon.2.1, hrest⟩
          · rintro ⟨hb, _, hrest⟩
            exact ⟨hb, hrest⟩
      · rw [if_neg h]
        simp only [mem_calculate_resets_masking_fst cyc f c ps,
          List.forall_mem_cons]
        constructor
        · rintro ⟨hb, hrest⟩
          exact ⟨hb, fun hcon => h hcon.1, hrest⟩
        · rintro ⟨hb, _, hrest⟩
          exact ⟨hb, hrest⟩

/-- C2: at every cycle `n`, a channel of the base set is in the gated
(output) set iff it is active from the primary pulses AND no masking pulse
sharing it is in its blocking window — the window where the masking elapsed
counter (which equals `(n - offset) mod period` once the offset is reached,
wrapping around each period) has reached or exceeded the masking high
value; the masking elapsed counters advance exactly like the primary ones
(same closed form). -/
theorem c2_masking_gates (pulses masks : List Pulse) (base : List ℤ)
    (c : ℤ) (n : ℕ)
    (hmper : ∀ p ∈ masks, 0 < p.period)
    (hmoff : ∀ p ∈ masks, 0 ≤ p.offset)
    (hcb : c ∈ base) :
    (c ∈ gated_at pulses base masks n ↔
      (c ∈ active_at pulses n ∧
        ¬ ∃ p ∈ masks, c ∈ p.channels ∧ p.offset ≤ (n : ℤ) ∧
          p.high ≤ ((n : ℤ) - p.offset) % p.period)) ∧
    mask_elapsed_after base masks n = masks.map (elapsed_closed (n : ℤ)) := by
  have hme := mask_elapsed_after_eq base masks hmper hmoff n
  refine ⟨?_, hme⟩
  unfold gated_at mask_active_at
  rw [hme]
  rw [List.mem_filter]
  simp only [decide_eq_true_eq]
  rw [mem_calculate_resets_masking_fst]
  constructor
  · rintro ⟨ha, _, hall⟩
    refine ⟨ha, ?_⟩
    rintro ⟨p, hp, hch, hoffn, hhigh⟩
    refine hall p hp ⟨hoffn, ?_, hch⟩
    unfold elapsed_closed
    rw [if_neg (not_lt.mpr hoffn)]
    exact hhigh
  · rintro ⟨ha, hnone⟩
    refine ⟨ha, hcb, ?_⟩
    intro p hp hcon
    refine hnone ⟨p, hp, hcon.2.2, hcon.1, ?_⟩
    have := hcon.2.1
    unfold elapsed_closed at this
    rw [if_neg (not_lt.mpr hcon.1)] at this
    exact this

/-- Witness for `c2_masking_gates`: a primary pulse of period 4 and high 2
on channel 0, masked by a pulse of period 3 and high 1 on channel 0,
checked at cycle 7 (the third masking period: wraparound). -/
theorem c2_witness :
    ((0 : ℤ) ∈ gated_at [⟨4, [0], 0, 2, true⟩] [0] [⟨3, [0], 0, 1, true⟩] 7 ↔
      ((0 : ℤ) ∈ active_at [⟨4, [0], 0, 2, true⟩] 7 ∧
        ¬ ∃ p ∈ [(⟨3, [0], 0, 1, true⟩ : Pulse)], (0 : ℤ) ∈ p.channels ∧
          p.offset ≤ (7 : ℤ) ∧
          p.high ≤ ((7 : ℤ) - p.offset) % p.period)) ∧
    mask_elapsed_after [0] [⟨3, [0], 0, 1, true⟩] 7 =
      [⟨3, [0], 0, 1, true⟩].map (elapsed_closed ((7 : ℕ) : ℤ)) :=
  c2_masking_gates [⟨4, [0], 0, 2, true⟩] [⟨3, [0], 0, 1, true⟩] [0] 0 7
    (by decide) (by decide) (by decide)

/-! ## C9 — the compiler never mutates caller-supplied signals -/

/-- `modifyAt` leaves every other cell unchanged. -/
theorem modifyAt_get?_ne (store : List Signal) (i : ℕ) (f : Signal → Signal)
    (j : ℕ) (h : j ≠ i) : (modifyAt store i f).get? j = store.get? j := by
  unfold modifyAt
  cases hg : store.get? i with
  | none => rfl
  | some s =>
      simp only [List.get?_eq_getElem?]
      exact List.getElem?_set_ne (fun hh => h hh.symm)

/-- Frequency assignment to cells at or above `base` leaves every cell
below `base` unchanged. -/
theorem assign_frequencies_get?_lt (freqs : List ℚ) (base : ℕ)
    (store : List Signal) (j : ℕ) (h : j < base) :
    (assign_frequencies store base freqs).get? j = store.get? j := by
  unfold assign_frequencies
  induction freqs.enum generalizing store with
  | nil => rfl
  | cons x xs ih =>
      rw [List.foldl_cons]
      rw [ih]
      exact modifyAt_get?_ne store (base + x.1) _ j (by omega)

/-- C9: `generate_repeating_pulses` never mutates its caller-supplied
`Signal` objects.  In the heap-passing embedding, after a successful run
every pre-existing store cell — in particular every cell referenced by the
caller's signal and masking-signal lists — holds exactly the value it held
before the call: the deep copies are allocated at fresh indices and the
rescaled frequencies are assigned only to those. -/
theorem c9_no_mutation (store : List Signal) (signal_refs masking_refs : List ℕ)
    (min_instruction_len nr_channels reserved_channels : ℤ)
    (store' : List Signal) (instrs : List Instruction)
    (h : generate_repeating_pulses_refs store signal_refs masking_refs
        min_instruction_len nr_channels reserved_channels =
      .ok (store', instrs))
    (i : ℕ) (hi : i < store.length) : store'.get? i = store.get? i := by
  unfold generate_repeating_pulses_refs at h
  simp only [] at h
  rcases hplan : generate_plan
      (signal_refs.map (fun i => store.getD i defaultSignal))
      (masking_refs.map (fun i => store.getD i defaultSignal))
      min_instruction_len nr_channels reserved_channels with e | r
  · rw [hplan] at h; simp at h
  · rw [hplan] at h
    simp only [Except.ok.injEq] at h
    have hstore := congrArg Prod.fst h
    dsimp only at hstore
    rw [← hstore]
    rw [assign_frequencies_get?_lt _ _ _ i (by omega)]
    rw [assign_frequencies_get?_lt _ _ _ i hi]
    rw [List.append_assoc]
    exact List.get?_append hi

/-- Witness for `c9_no_mutation`: compiling the 10 Hz signal through the
heap-passing embedding leaves the caller's cell 0 untouched. -/
theorem c9_witness :
    ∃ p : List Signal × List Instruction,
      generate_repeating_pulses_refs [sig10] [0] [] 20 24 3 = .ok p ∧
      p.1.get? 0 = [sig10].get? 0 := by
  refine ⟨([sig10, sig10], c1_output), by decide!, ?_⟩
  exact c9_no_mutation [sig10] [0] [] 20 24 3 [sig10, sig10] c1_output
    (by decide!) 0 (by decide)

/-! ## C4 — gcd coarsening and the observable output -/

/-- The quantized test pulse: period 4, high 2, no offset, channel 0. -/
def c4_pulse : Pulse := ⟨4, [0], 0, 2, true⟩

/-- C4 counterexample: for the pulse of period 4 and high 2 quanta with
duration 160 ns at quantum 20 ns, the gcd-coarsened run (gcd 2) and the
uncoarsened run produce instruction lists with DIFFERENT per-instruction
durations and bitmask sequences: the uncoarsened run emits one extra
trailing CONTINUE (20 ns, all off) and a 20 ns BRANCH where the coarsened
run's BRANCH is 40 ns. -/
theorem c4_counterexample :
    generate_with_gcd 2 [c4_pulse] [] [sig10] [0] 160 20 24 3 =
      [⟨"", chsOn, 40, .CONTINUE, 0⟩, ⟨"", chsOff, 40, .CONTINUE, 0⟩,
       ⟨"", chsOn, 40, .CONTINUE, 0⟩, ⟨"", chsOff, 40, .BRANCH, 0⟩] ∧
    generate_with_gcd 1 [c4_pulse] [] [sig10] [0] 160 20 24 3 =
      [⟨"", chsOn, 40, .CONTINUE, 0⟩, ⟨"", chsOff, 40, .CONTINUE, 0⟩,
       ⟨"", chsOn, 40, .CONTINUE, 0⟩, ⟨"", chsOff, 20, .CONTINUE, 0⟩,
       ⟨"", chsOff, 20, .BRANCH, 0⟩] ∧
    (generate_with_gcd 2 [c4_pulse] [] [sig10] [0] 160 20 24 3).map
        (·.duration) ≠
      (generate_with_gcd 1 [c4_pulse] [] [sig10] [0] 160 20 24 3).map
        (·.duration) ∧
    (generate_with_gcd 2 [c4_pulse] [] [sig10] [0] 160 20 24 3).map
        (·.flags) ≠
      (generate_with_gcd 1 [c4_pulse] [] [sig10] [0] 160 20 24 3).map
        (·.flags) := by
  refine ⟨by decide!, by decide!, by decide!, by decide!⟩

/-- Division of one pulse's period/offset/high by the coarsening factor, as
`rescale_pulses` performs it. -/
def pulse_div (g : ℤ) (p : Pulse) : Pulse :=
  { p with period := p.period.fdiv g, offset := p.offset.fdiv g,
           high := p.high.fdiv g }

theorem pulse_div_one (p : Pulse) : pulse_div 1 p = p := by
  simp [pulse_div, Int.fdiv_one]

/-- `rescale_pulses` is the map of `pulse_div` on both lists. -/
theorem rescale_pulses_eq (g : ℤ) (ps ms : List Pulse) :
    rescale_pulses g ps ms = (ps.map (pulse_div g), ms.map (pulse_div g)) := by
  unfold rescale_pulses pulse_div
  by_cases h : g ≠ 1
  · rw [if_pos h]
  · rw [if_neg h]
    push_neg at h
    subst h
    simp [Int.fdiv_one]

/-- Scaling out a common factor of the modulus: for `0 ≤ r < g`,
`(g*m + r) % (g*p) = g*(m % p) + r`. -/
theorem emod_scale (g m p r : ℤ) (hg : 0 < g) (hp : 0 < p) (hr : 0 ≤ r)
    (hrg : r < g) : (g * m + r) % (g * p) = g * (m % p) + r := by
  have hmod0 : 0 ≤ m % p := Int.emod_nonneg m (ne_of_gt hp)
  have hmodp : m % p < p := Int.emod_lt_of_pos m hp
  have h1 : 0 ≤ g * (m % p) + r := by positivity
  have h2 : g * (m % p) + r < g * p := by nlinarith
  rw [show g * m + r = (g * (m % p) + r) + (g * p) * (m / p) from by
    rw [Int.emod_def]; ring]
  rw [Int.add_mul_emod_self_left]
  exact Int.emod_eq_of_lt h1 h2

/-- For `0 ≤ r < g`, `g*a + r < g*b ↔ a < b`. -/
theorem scaled_lt_iff (g a b r : ℤ) (hg : 0 < g) (hr : 0 ≤ r) (hrg : r < g) :
    g * a + r < g * b ↔ a < b := by
  constructor
  · intro h
    by_contra hc
    push_neg at hc
    nlinarith
  · intro h
    nlinarith

/-- For `0 ≤ r < g`, `g*a ≤ g*k + r ↔ a ≤ k`. -/
theorem scaled_le_iff (g a k r : ℤ) (hg : 0 < g) (hr : 0 ≤ r) (hrg : r < g) :
    g * a ≤ g * k + r ↔ a ≤ k := by
  constructor
  · intro h
    by_contra hc
    push_neg at hc
    nlinarith
  · intro h
    nlinarith

/-- Closed formula for the active-channel union of one cycle. -/
theorem calculate_resets_fst_formula (cyc : ℤ) (f : Pulse → ℤ) :
    ∀ ps : List Pulse,
      (calculate_resets (ps.map f) ps cyc).1 =
        ps.foldr (fun p acc =>
          (if p.offset ≤ cyc ∧ f p < p.high then p.channels else []) ++ acc)
          []
  | [] => rfl
  | p :: ps => by
      simp only [List.map_cons, calculate_resets, List.foldr_cons]
      by_cases h : p.offset ≤ cyc
      · rw [if_pos h]
        by_cases hh : f p < p.high
        · rw [if_pos hh, if_pos ⟨h, hh⟩]
          simp only []
          rw [calculate_resets_fst_formula cyc f ps]
        · rw [if_neg hh, if_neg (fun hc => hh hc.2)]
          simp only [List.nil_append]
          rw [calculate_resets_fst_formula cyc f ps]
      · rw [if_neg h, if_neg (fun hc : _ ∧ _ => h hc.1)]
        simp only [List.nil_append]
        rw [calculate_resets_fst_formula cyc f ps]

/-- Closed formula for the masking-survivor set of one cycle: a single
filter of the base channel set. -/
theorem calculate_resets_masking_fst_formula (cyc : ℤ) (f : Pulse → ℤ) :
    ∀ (ps : List Pulse) (base : List ℤ),
      (calculate_resets_masking (ps.map f) base ps cyc).1 =
        base.filter (fun c => ps.all (fun p =>
          ! decide (p.offset ≤ cyc ∧ p.high ≤ f p ∧ c ∈ p.channels)))
  | [], base => by
      simp [calculate_resets_masking]
  | p :: ps, base => by
      simp only [List.map_cons, calculate_resets_masking]
      by_cases h : p.offset ≤ cyc
      · rw [if_pos h]
        by_cases hh : p.high ≤ f p
        · rw [if_pos hh]
          simp only []
          rw [calculate_resets_masking_fst_formula cyc f ps _,
            List.filter_filter]
          apply List.filter_congr
          intro c _
          simp [List.all_cons, h, hh, Bool.and_comm]
        · rw [if_neg hh]
          simp only []
          rw [calculate_resets_masking_fst_formula cyc f ps _]
          apply List.filter_congr
          intro c _
          simp [List.all_cons, h, hh]
      · rw [if_neg h]
        simp only []
        rw [calculate_resets_masking_fst_formula cyc f ps _]
        apply List.filter_congr
        intro c _
        simp [List.all_cons, h]

/-- Offsets scale: `o/g ≤ k ↔ o ≤ k*g + r` for `0 ≤ r < g`, `g ∣ o`. -/
theorem pulse_div_offset_le (g k r : ℤ) (hg : 0 < g) (hr : 0 ≤ r)
    (hrg : r < g) (p : Pulse) (hdo : g ∣ p.offset) :
    (pulse_div g p).offset ≤ k ↔ p.offset ≤ k * g + r := by
  obtain ⟨o, ho⟩ := hdo
  unfold pulse_div
  simp only [ho]
  rw [Int.mul_fdiv_cancel_left o (ne_of_gt hg)]
  rw [show k * g + r = g * k + r from by ring]
  exact (scaled_le_iff g o k r hg hr hrg).symm

/-- The fine elapsed counter is `g ×` the coarse one plus the block offset
`r`, once the offset has been reached. -/
theorem elapsed_closed_scaled (g k r : ℤ) (hg : 0 < g) (hr : 0 ≤ r)
    (hrg : r < g) (p : Pulse) (hper : 0 < p.period) (hdp : g ∣ p.period)
    (hdo : g ∣ p.offset) (hol : (pulse_div g p).offset ≤ k) :
    elapsed_closed (k * g + r) p =
      g * elapsed_closed k (pulse_div g p) + r := by
  obtain ⟨o, ho⟩ := hdo
  obtain ⟨per, hperiod⟩ := hdp
  have hper' : 0 < per := by
    rcases lt_trichotomy per 0 with h | h | h
    · nlinarith [hperiod ▸ hper]
    · rw [h, mul_zero] at hperiod; omega
    · exact h
  have hoffc : (pulse_div g p).offset = o := by
    unfold pulse_div
    simp only [ho]
    exact Int.mul_fdiv_cancel_left o (ne_of_gt hg)
  have hperc : (pulse_div g p).period = per := by
    unfold pulse_div
    simp only [hperiod]
    exact Int.mul_fdiv_cancel_left per (ne_of_gt hg)
  have hofle : p.offset ≤ k * g + r :=
    (pulse_div_offset_le g k r hg hr hrg p ⟨o, ho⟩).mp hol
  have hol' : o ≤ k := hoffc ▸ hol
  unfold elapsed_closed
  rw [hoffc, hperc]
  rw [if_neg (not_lt.mpr hofle), if_neg (not_lt.mpr hol')]
  rw [ho, hperiod]
  rw [show k * g + r - g * o = g * (k - o) + r from by ring]
  exact emod_scale g (k - o) per r hg hper' hr hrg

/-- The per-pulse ACTIVE condition is invariant under coarsening. -/
theorem active_cond_scaled (g k r : ℤ) (hg : 0 < g) (hr : 0 ≤ r)
    (hrg : r < g) (p : Pulse) (hper : 0 < p.period) (hdp : g ∣ p.period)
    (hdo : g ∣ p.offset) (hdh : g ∣ p.high) :
    ((pulse_div g p).offset ≤ k ∧
      elapsed_closed k (pulse_div g p) < (pulse_div g p).high) ↔
    (p.offset ≤ k * g + r ∧ elapsed_closed (k * g + r) p < p.high) := by
  obtain ⟨h', hh'⟩ := hdh
  have hhighc : (pulse_div g p).high = h' := by
    unfold pulse_div
    simp only [hh']
    exact Int.mul_fdiv_cancel_left h' (ne_of_gt hg)
  by_cases hol : (pulse_div g p).offset ≤ k
  · have hofle := (pulse_div_offset_le g k r hg hr hrg p hdo).mp hol
    simp only [hol, hofle, true_and]
    rw [elapsed_closed_scaled g k r hg hr hrg p hper hdp hdo hol, hh', hhighc]
    exact (scaled_lt_iff g _ h' r hg hr hrg).symm
  · have hofgt := fun hc =>
      hol ((pulse_div_offset_le g k r hg hr hrg p hdo).mpr hc)
    constructor
    · rintro ⟨hc, _⟩; exact absurd hc hol
    · rintro ⟨hc, _⟩; exact absurd hc hofgt

/-- The per-pulse BLOCKING condition is invariant under coarsening. -/
theorem blocked_cond_scaled (g k r : ℤ) (hg : 0 < g) (hr : 0 ≤ r)
    (hrg : r < g) (p : Pulse) (hper : 0 < p.period) (hdp : g ∣ p.period)
    (hdo : g ∣ p.offset) (hdh : g ∣ p.high) :
    ((pulse_div g p).offset ≤ k ∧
      (pulse_div g p).high ≤ elapsed_closed k (pulse_div g p)) ↔
    (p.offset ≤ k * g + r ∧ p.high ≤ elapsed_closed (k * g + r) p) := by
  obtain ⟨h', hh'⟩ := hdh
  have hhighc : (pulse_div g p).high = h' := by
    unfold pulse_div
    simp only [hh']
    exact Int.mul_fdiv_cancel_left h' (ne_of_gt hg)
  by_cases hol : (pulse_div g p).offset ≤ k
  · have hofle := (pulse_div_offset_le g k r hg hr hrg p hdo).mp hol
    simp only [hol, hofle, true_and]
    rw [elapsed_closed_scaled g k r hg hr hrg p hper hdp hdo hol, hh', hhighc]
    rw [← not_lt, ← not_lt]
    exact not_congr (scaled_lt_iff g _ h' r hg hr hrg).symm
  · have hofgt := fun hc =>
      hol ((pulse_div_offset_le g k r hg hr hrg p hdo).mpr hc)
    constructor
    · rintro ⟨hc, _⟩; exact absurd hc hol
    · rintro ⟨hc, _⟩; exact absurd hc hofgt

/-- The bitmask the compiler's loop computes at cycle `n`, expressed through
the closed form of the elapsed counters. -/
def chs_at (pulses masks : List Pulse) (signal_channels active_low : List ℤ)
    (nr_channels res : ℤ) (n : ℤ) : List ℤ :=
  cycle_chs pulses masks signal_channels active_low nr_channels res
    (pulses.map (elapsed_closed n)) (masks.map (elapsed_closed n)) n

/-- The elapsed components of the loop state are the iterated counters. -/
theorem generate_fold_elapsed (pulses masks : List Pulse)
    (signal_channels active_low : List ℤ) (q nr_channels res : ℤ) :
    ∀ n : ℕ,
      (generate_fold pulses masks signal_channels active_low q nr_channels
        res n).1 = elapsed_after pulses n ∧
      (generate_fold pulses masks signal_channels active_low q nr_channels
        res n).2.1 = mask_elapsed_after signal_channels masks n
  | 0 => ⟨rfl, rfl⟩
  | n + 1 => by
      rw [generate_fold_succ]
      unfold compile_cycle
      have ih := generate_fold_elapsed pulses masks signal_channels active_low
        q nr_channels res n
      constructor
      · simp only []
        rw [ih.1]
        rfl
      · simp only []
        rw [ih.2]
        rfl

/-- `List.all` respects pointwise equal predicates. -/
theorem all_congr_mem {α : Type} (l : List α) (f g : α → Bool)
    (h : ∀ a ∈ l, f a = g a) : l.all f = l.all g := by
  induction l with
  | nil => rfl
  | cons x xs ih =>
      simp only [List.all_cons]
      rw [h x (List.mem_cons_self x xs), ih (fun a ha => h a (List.mem_cons_of_mem x ha))]

/-- Coarsening invariance of the per-cycle bitmask: the bitmask of coarse
cycle `k` equals the bitmask of each fine cycle `k*g + r`, `0 ≤ r < g`,
when every pulse's period/offset/high is divisible by `g`. -/
theorem chs_at_coarse (g : ℤ) (hg : 0 < g) (pulses masks : List Pulse)
    (signal_channels active_low : List ℤ) (nr_channels res : ℤ)
    (hps : ∀ p ∈ pulses, 0 < p.period ∧ g ∣ p.period ∧ g ∣ p.offset ∧
      g ∣ p.high)
    (hms : ∀ p ∈ masks, 0 < p.period ∧ g ∣ p.period ∧ g ∣ p.offset ∧
      g ∣ p.high)
    (k r : ℤ) (hr : 0 ≤ r) (hrg : r < g) :
    chs_at (pulses.map (pulse_div g)) (masks.map (pulse_div g))
        signal_channels active_low nr_channels res k =
      chs_at pulses masks signal_channels active_low nr_channels res
        (k * g + r) := by
  unfold chs_at cycle_chs
  have hA : (calculate_resets
      ((pulses.map (pulse_div g)).map (elapsed_closed k))
      (pulses.map (pulse_div g)) k).1 =
    (calculate_resets (pulses.map (elapsed_closed (k * g + r))) pulses
      (k * g + r)).1 := by
    rw [calculate_resets_fst_formula, calculate_resets_fst_formula,
      List.foldr_map]
    induction pulses with
    | nil => rfl
    | cons p ps ih =>
        obtain ⟨hper, hdp, hdo, hdh⟩ := hps p (List.mem_cons_self p ps)
        simp only [List.foldr_cons]
        rw [ih (fun p hp => hps p (List.mem_cons_of_mem _ hp))]
        congr 1
        rw [if_congr
          (active_cond_scaled g k r hg hr hrg p hper hdp hdo hdh) rfl rfl]
        rfl
  have hB : (calculate_resets_masking
      ((masks.map (pulse_div g)).map (elapsed_closed k)) signal_channels
      (masks.map (pulse_div g)) k).1 =
    (calculate_resets_masking (masks.map (elapsed_closed (k * g + r)))
      signal_channels masks (k * g + r)).1 := by
    rw [calculate_resets_masking_fst_formula,
      calculate_resets_masking_fst_formula]
    apply List.filter_congr
    intro c _
    rw [List.all_map]
    apply all_congr_mem
    intro p hp
    obtain ⟨hper, hdp, hdo, hdh⟩ := hms p hp
    simp only [Function.comp]
    congr 1
    apply decide_eq_decide.mpr
    constructor
    · rintro ⟨h1, h2, h3⟩
      obtain ⟨h1', h2'⟩ :=
        (blocked_cond_scaled g k r hg hr hrg p hper hdp hdo hdh).mp ⟨h1, h2⟩
      exact ⟨h1', h2', h3⟩
    · rintro ⟨h1, h2, h3⟩
      obtain ⟨h1', h2'⟩ :=
        (blocked_cond_scaled g k r hg hr hrg p hper hdp hdo hdh).mpr ⟨h1, h2⟩
      exact ⟨h1', h2', h3⟩
  rw [hA, hB]

/-- Merging `j` further copies of the current last state only grows the
last duration by `j` quanta. -/
theorem rll_fold_replicate_merge (q : ℤ) (s : List ℤ) :
    ∀ (j : ℕ) (t : List ℤ) (c : List (List ℤ)), c.getLast? = some s →
      (List.replicate j s).foldl
          (fun tc x => rll_append q tc.1 tc.2 x) (t, c) =
        (if j = 0 then t else t.dropLast ++ [t.getLastD 0 + (j : ℤ) * q], c)
  | 0, t, c, _ => by simp
  | j + 1, t, c, hlast => by
      have hcne : c ≠ [] := by
        intro hc; rw [hc] at hlast; simp at hlast
      rw [List.replicate_succ, List.foldl_cons]
      rw [show rll_append q t c s =
          (t.dropLast ++ [t.getLastD 0 + q], c) from by
        unfold rll_append
        rw [if_neg hcne, if_pos hlast]]
      rw [rll_fold_replicate_merge q s j _ c hlast]
      by_cases hj : j = 0
      · subst hj
        simp
      · rw [if_neg hj, if_neg (Nat.succ_ne_zero j)]
        rw [List.dropLast_concat, List.getLastD_concat]
        rw [show t.getLastD 0 + q + (j : ℤ) * q
          = t.getLastD 0 + ((j : ℕ) + 1 : ℤ) * q from by ring]
        rw [show (((j : ℕ) + 1 : ℤ)) = ((j + 1 : ℕ) : ℤ) from by push_cast; ring]

/-- Appending `j > 0` copies of a fresh state adds exactly one new
instruction of `j` quanta. -/
theorem rll_fold_replicate_fresh (q : ℤ) (s : List ℤ) (j : ℕ) (hj : 0 < j)
    (t : List ℤ) (c : List (List ℤ)) (hfresh : ¬ c.getLast? = some s) :
    (List.replicate j s).foldl (fun tc x => rll_append q tc.1 tc.2 x) (t, c) =
      (t ++ [(j : ℤ) * q], c ++ [s]) := by
  obtain ⟨j, rfl⟩ : ∃ j', j = j' + 1 := ⟨j - 1, by omega⟩
  rw [List.replicate_succ, List.foldl_cons]
  rw [show rll_append q t c s = (t ++ [q], c ++ [s]) from by
    unfold rll_append
    by_cases hc : c = []
    · rw [if_pos hc]
    · rw [if_neg hc, if_neg hfresh]]
  rw [rll_fold_replicate_merge q s j _ _ (by simp)]
  by_cases hj0 : j = 0
  · subst hj0; simp
  · rw [if_neg hj0, List.dropLast_concat, List.getLastD_concat]
    rw [show q + (j : ℤ) * q = ((j + 1 : ℕ) : ℤ) * q from by push_cast; ring]

/-- A block of `g` copies of one state behaves exactly like one state at a
`g`-times-coarser quantum. -/
theorem rll_fold_block (q : ℤ) (g : ℕ) (hg : 0 < g) (s : List ℤ)
    (acc : List ℤ × List (List ℤ)) :
    (List.replicate g s).foldl (fun tc x => rll_append q tc.1 tc.2 x) acc =
      rll_append ((g : ℤ) * q) acc.1 acc.2 s := by
  by_cases hlast : acc.2.getLast? = some s
  · have hcne : acc.2 ≠ [] := by
      intro hc; rw [hc] at hlast; simp at hlast
    rw [show acc = (acc.1, acc.2) from rfl,
      rll_fold_replicate_merge q s g acc.1 acc.2 hlast]
    unfold rll_append
    rw [if_neg hcne, if_pos hlast, if_neg (by omega)]
  · rw [show acc = (acc.1, acc.2) from rfl,
      rll_fold_replicate_fresh q s g hg acc.1 acc.2 hlast]
    unfold rll_append
    by_cases hc : acc.2 = []
    · rw [if_pos hc]
    · rw [if_neg hc, if_neg hlast]

/-- Expanding every state into `g` copies at quantum `q` produces exactly
the fold at quantum `g*q`. -/
theorem rll_fold_expand (q : ℤ) (g : ℕ) (hg : 0 < g) :
    ∀ (l : List (List ℤ)) (acc : List ℤ × List (List ℤ)),
      (l.flatMap (List.replicate g)).foldl
          (fun tc x => rll_append q tc.1 tc.2 x) acc =
        l.foldl (fun tc x => rll_append ((g : ℤ) * q) tc.1 tc.2 x) acc
  | [], _ => rfl
  | s :: l, acc => by
      rw [List.flatMap_cons, List.foldl_append, rll_fold_block q g hg s acc,
        List.foldl_cons]
      exact rll_fold_expand q g hg l _

/-- Processing `m` trailing copies of a state extends the compressed lists
by at most one instruction and leaves all but the last duration intact. -/
theorem rll_fold_tail (q : ℤ) (s : List ℤ) (m : ℕ) (t : List ℤ)
    (c : List (List ℤ)) :
    ∃ tail : List (List ℤ),
      ((List.replicate m s).foldl
          (fun tc x => rll_append q tc.1 tc.2 x) (t, c)).2 = c ++ tail ∧
      tail.length ≤ 1 ∧
      ((List.replicate m s).foldl
          (fun tc x => rll_append q tc.1 tc.2 x) (t, c)).1.take
            (t.length - 1) = t.take (t.length - 1) := by
  by_cases hm : m = 0
  · subst hm
    exact ⟨[], by simp, by simp, rfl⟩
  · by_cases hlast : c.getLast? = some s
    · rw [rll_fold_replicate_merge q s m t c hlast]
      refine ⟨[], by simp, by simp, ?_⟩
      rw [if_neg hm]
      simp only []
      rw [show t.take (t.length - 1) = t.dropLast from
        (List.dropLast_eq_take t).symm]
      rw [List.take_append_of_le_length (by rw [List.length_dropLast])]
      exact List.take_of_length_le (by rw [List.length_dropLast])
    · rw [rll_fold_replicate_fresh q s m (by omega) t c hlast]
      refine ⟨[s], rfl, by simp, ?_⟩
      simp only []
      exact List.take_append_of_le_length (by omega)

/-- `ratFloor` is the identity on integers. -/
theorem ratFloor_intCast (z : ℤ) : ratFloor (z : ℚ) = z := by
  unfold ratFloor
  rw [Rat.num_intCast, Rat.den_intCast, Nat.cast_one, Int.fdiv_one]

/-- `pyTrunc` is the identity on integers. -/
theorem pyTrunc_intCast (z : ℤ) : pyTrunc (z : ℚ) = z := by
  unfold pyTrunc
  by_cases h : (z : ℚ) < 0
  · rw [if_pos h, show -(z : ℚ) = ((-z : ℤ) : ℚ) from by push_cast; ring,
      ratFloor_intCast]
    ring
  · rw [if_neg h, ratFloor_intCast]

/-- `pulse_div` keeps the period positive and the offset nonnegative when
the coarsening factor divides both. -/
theorem pulse_div_pos (g : ℤ) (hg : 0 < g) (p : Pulse) (hper : 0 < p.period)
    (hdp : g ∣ p.period) (hoff : 0 ≤ p.offset) (hdo : g ∣ p.offset) :
    0 < (pulse_div g p).period ∧ 0 ≤ (pulse_div g p).offset := by
  obtain ⟨d, hd⟩ := hdp
  obtain ⟨e, he⟩ := hdo
  constructor
  · show 0 < p.period.fdiv g
    rw [hd, Int.mul_fdiv_cancel_left d (ne_of_gt hg)]
    rw [hd] at hper
    by_contra hcon
    push_neg at hcon
    nlinarith
  · show 0 ≤ p.offset.fdiv g
    rw [he, Int.mul_fdiv_cancel_left e (ne_of_gt hg)]
    rw [he] at hoff
    by_contra hcon
    push_neg at hcon
    nlinarith

/-- The flag lists of the emitted CONTINUE instructions are exactly the
compressed `c` list. -/
theorem map_flags_zip (t : List ℤ) (c : List (List ℤ))
    (h : t.length = c.length) :
    ((List.zip t c).map (fun tc =>
        Instruction.mk "" tc.2 tc.1 Opcode.CONTINUE 0)).map (·.flags)
      = c := by
  rw [List.map_map]
  rw [show ((fun i : Instruction => i.flags) ∘
      (fun tc : ℤ × List ℤ => Instruction.mk "" tc.2 tc.1 Opcode.CONTINUE 0))
    = Prod.snd from rfl]
  exact List.map_snd_zip t c (le_of_eq h.symm)

/-- The compressed `(t, c)` pair of the main loop is a pure `rll_append`
fold over the closed-form per-cycle bitmasks. -/
theorem generate_loop_eq_fold (pulses masks : List Pulse)
    (signal_channels active_low : List ℤ) (q nr_channels res : ℤ)
    (hpper : ∀ p ∈ pulses, 0 < p.period) (hpoff : ∀ p ∈ pulses, 0 ≤ p.offset)
    (hmper : ∀ p ∈ masks, 0 < p.period) (hmoff : ∀ p ∈ masks, 0 ≤ p.offset) :
    ∀ N : ℕ,
      generate_loop pulses masks signal_channels active_low q nr_channels
          res N =
      ((List.range N).map (fun n : ℕ =>
          chs_at pulses masks signal_channels active_low nr_channels res
            (n : ℤ))).foldl (fun tc x => rll_append q tc.1 tc.2 x) ([], [])
  | 0 => rfl
  | N + 1 => by
      rw [List.range_succ, List.map_append, List.foldl_append,
        ← generate_loop_eq_fold pulses masks signal_channels active_low q
            nr_channels res hpper hpoff hmper hmoff N]
      unfold generate_loop
      rw [generate_fold_succ]
      unfold compile_cycle
      simp only [List.map_cons, List.map_nil, List.foldl_cons, List.foldl_nil]
      have he := generate_fold_elapsed pulses masks signal_channels active_low
        q nr_channels res N
      rw [he.1, he.2, elapsed_after_eq pulses hpper hpoff N,
        mask_elapsed_after_eq signal_channels masks hmper hmoff N]
      rfl

/-- Expanding a range of `Nc*g` fine cycles into `Nc` blocks of `g` copies
of the corresponding coarse per-cycle value. -/
theorem range_map_blocks (g : ℕ) (f F : ℕ → List ℤ)
    (hblock : ∀ k r : ℕ, r < g → f (k * g + r) = F k) :
    ∀ Nc : ℕ, (List.range (Nc * g)).map f =
      ((List.range Nc).map F).flatMap (List.replicate g)
  | 0 => by simp
  | Nc + 1 => by
      rw [show (Nc + 1) * g = Nc * g + g from by ring, List.range_add,
        List.map_append, range_map_blocks g f F hblock Nc, List.range_succ,
        List.map_append, List.flatMap_append]
      congr 1
      rw [List.map_cons, List.map_nil, List.flatMap_cons, List.flatMap_nil,
        List.append_nil, List.map_map]
      refine List.eq_replicate_iff.mpr ⟨by simp, ?_⟩
      intro b hb
      rw [List.mem_map] at hb
      obtain ⟨x, hx, rfl⟩ := hb
      exact hblock Nc x (List.mem_range.mp hx)

/-- Mapping the per-cycle value over an offset block of `m ≤ g` trailing
fine cycles yields `m` copies of the coarse value. -/
theorem map_add_map_replicate (g m a k : ℕ) (hm : m ≤ g) (f F : ℕ → List ℤ)
    (hblock : ∀ k' r : ℕ, r < g → f (k' * g + r) = F k') (ha : a = k * g) :
    ((List.range m).map (a + ·)).map f = List.replicate m (F k) := by
  refine List.eq_replicate_iff.mpr ⟨by simp, ?_⟩
  intro b hb
  rw [List.map_map, List.mem_map] at hb
  obtain ⟨x, hx, rfl⟩ := hb
  have hxm := List.mem_range.mp hx
  show f (a + x) = F k
  rw [ha]
  exact hblock k x (by omega)

/-- Folding `rll_append` at the fine quantum over `Nc` blocks of `g`
identical cycles plus `m ≤ g` trailing cycles yields the coarse fold's `c`
list extended by at most one entry, with the coarse `t` list preserved up
to its last entry. -/
theorem rll_fold_coarse (q : ℤ) (g m : ℕ) (hg : 0 < g) (f F : ℕ → List ℤ)
    (hblock : ∀ k r : ℕ, r < g → f (k * g + r) = F k) (hm : m ≤ g)
    (Nc : ℕ) :
    ∃ tail : List (List ℤ),
      (((List.range (Nc * g + m)).map f).foldl
          (fun tc x => rll_append q tc.1 tc.2 x) ([], [])).2 =
        (((List.range Nc).map F).foldl
          (fun tc x => rll_append ((g : ℤ) * q) tc.1 tc.2 x) ([], [])).2
          ++ tail ∧
      tail.length ≤ 1 ∧
      (((List.range (Nc * g + m)).map f).foldl
          (fun tc x => rll_append q tc.1 tc.2 x) ([], [])).1.take
        ((((List.range Nc).map F).foldl
          (fun tc x => rll_append ((g : ℤ) * q) tc.1 tc.2 x)
            ([], [])).1.length - 1) =
      (((List.range Nc).map F).foldl
          (fun tc x => rll_append ((g : ℤ) * q) tc.1 tc.2 x) ([], [])).1.take
        ((((List.range Nc).map F).foldl
          (fun tc x => rll_append ((g : ℤ) * q) tc.1 tc.2 x)
            ([], [])).1.length - 1) := by
  rw [List.range_add, List.map_append, List.foldl_append,
    range_map_blocks g f F hblock Nc, rll_fold_expand q g hg,
    map_add_map_replicate g m (Nc * g) Nc hm f F hblock rfl]
  obtain ⟨tail, h1, h2, h3⟩ := rll_fold_tail q (F Nc) m
    (((List.range Nc).map F).foldl
      (fun tc x => rll_append ((g : ℤ) * q) tc.1 tc.2 x) ([], [])).1
    (((List.range Nc).map F).foldl
      (fun tc x => rll_append ((g : ℤ) * q) tc.1 tc.2 x) ([], [])).2
  exact ⟨tail, h1, h2, h3⟩

/-- Coarsening invariance at the level of the compiler's main loop: running
`Nc*g + m` fine cycles (quantum `q`) on the original pulses produces the
same compressed channel-state list as running `Nc` coarse cycles (quantum
`g*q`) on the `pulse_div`-rescaled pulses, except for at most one extra
trailing entry, and the durations agree on all full coarse instructions. -/
theorem generate_loop_coarse (pulses masks : List Pulse) (sc al : List ℤ)
    (q nrCh res : ℤ) (g Nc m : ℕ) (hg : 0 < g) (hm : m ≤ g)
    (hps : ∀ p ∈ pulses, 0 < p.period ∧ (g : ℤ) ∣ p.period ∧
      (g : ℤ) ∣ p.offset ∧ (g : ℤ) ∣ p.high)
    (hpoff : ∀ p ∈ pulses, 0 ≤ p.offset)
    (hms : ∀ p ∈ masks, 0 < p.period ∧ (g : ℤ) ∣ p.period ∧
      (g : ℤ) ∣ p.offset ∧ (g : ℤ) ∣ p.high)
    (hmoff : ∀ p ∈ masks, 0 ≤ p.offset) :
    ∃ tail : List (List ℤ),
      (generate_loop pulses masks sc al q nrCh res (Nc * g + m)).2 =
        (generate_loop (pulses.map (pulse_div (g : ℤ)))
          (masks.map (pulse_div (g : ℤ))) sc al ((g : ℤ) * q) nrCh res
          Nc).2 ++ tail ∧
      tail.length ≤ 1 ∧
      (generate_loop pulses masks sc al q nrCh res (Nc * g + m)).1.take
          ((generate_loop (pulses.map (pulse_div (g : ℤ)))
            (masks.map (pulse_div (g : ℤ))) sc al ((g : ℤ) * q) nrCh res
            Nc).1.length - 1) =
        (generate_loop (pulses.map (pulse_div (g : ℤ)))
          (masks.map (pulse_div (g : ℤ))) sc al ((g : ℤ) * q) nrCh res
          Nc).1.take
          ((generate_loop (pulses.map (pulse_div (g : ℤ)))
            (masks.map (pulse_div (g : ℤ))) sc al ((g : ℤ) * q) nrCh res
            Nc).1.length - 1) := by
  have hg' : (0 : ℤ) < (g : ℤ) := by exact_mod_cast hg
  have hpper : ∀ p ∈ pulses, 0 < p.period := fun p hp => (hps p hp).1
  have hmper : ∀ p ∈ masks, 0 < p.period := fun p hp => (hms p hp).1
  have hcpper : ∀ p ∈ pulses.map (pulse_div (g : ℤ)), 0 < p.period := by
    intro p hp
    rw [List.mem_map] at hp
    obtain ⟨p0, hp0, rfl⟩ := hp
    exact (pulse_div_pos (g : ℤ) hg' p0 (hps p0 hp0).1 (hps p0 hp0).2.1
      (hpoff p0 hp0) (hps p0 hp0).2.2.1).1
  have hcpoff : ∀ p ∈ pulses.map (pulse_div (g : ℤ)), 0 ≤ p.offset := by
    intro p hp
    rw [List.mem_map] at hp
    obtain ⟨p0, hp0, rfl⟩ := hp
    exact (pulse_div_pos (g : ℤ) hg' p0 (hps p0 hp0).1 (hps p0 hp0).2.1
      (hpoff p0 hp0) (hps p0 hp0).2.2.1).2
  have hcmper : ∀ p ∈ masks.map (pulse_div (g : ℤ)), 0 < p.period := by
    intro p hp
    rw [List.mem_map] at hp
    obtain ⟨p0, hp0, rfl⟩ := hp
    exact (pulse_div_pos (g : ℤ) hg' p0 (hms p0 hp0).1 (hms p0 hp0).2.1
      (hmoff p0 hp0) (hms p0 hp0).2.2.1).1
  have hcmoff : ∀ p ∈ masks.map (pulse_div (g : ℤ)), 0 ≤ p.offset := by
    intro p hp
    rw [List.mem_map] at hp
    obtain ⟨p0, hp0, rfl⟩ := hp
    exact (pulse_div_pos (g : ℤ) hg' p0 (hms p0 hp0).1 (hms p0 hp0).2.1
      (hmoff p0 hp0) (hms p0 hp0).2.2.1).2
  have hblock : ∀ (k r : ℕ), r < g →
      chs_at pulses masks sc al nrCh res ((k * g + r : ℕ) : ℤ) =
        chs_at (pulses.map (pulse_div (g : ℤ)))
          (masks.map (pulse_div (g : ℤ))) sc al nrCh res ((k : ℕ) : ℤ) := by
    intro k r hrg
    rw [show ((k * g + r : ℕ) : ℤ) = (k : ℤ) * (g : ℤ) + (r : ℤ) from by
      push_cast; ring]
    exact (chs_at_coarse (g : ℤ) hg' pulses masks sc al nrCh res hps hms
      (k : ℤ) (r : ℤ) (by exact_mod_cast Nat.zero_le r)
      (by exact_mod_cast hrg)).symm
  rw [generate_loop_eq_fold pulses masks sc al q nrCh res hpper hpoff hmper
      hmoff (Nc * g + m),
    generate_loop_eq_fold (pulses.map (pulse_div (g : ℤ)))
      (masks.map (pulse_div (g : ℤ))) sc al ((g : ℤ) * q) nrCh res hcpper
      hcpoff hcmper hcmoff Nc]
  exact rll_fold_coarse q g m hg
    (fun n : ℕ => chs_at pulses masks sc al nrCh res (n : ℤ))
    (fun n : ℕ => chs_at (pulses.map (pulse_div (g : ℤ)))
      (masks.map (pulse_div (g : ℤ))) sc al nrCh res (n : ℤ))
    hblock hm Nc

/-- C4 (amended): gcd coarsening (dividing each Pulse's period/offset/high
by the factor `g` and multiplying the quantum by `g`) preserves the
per-cycle channel-bitmask timeline exactly (conclusion 1), and at the
instruction level the coarsened run's compressed bitmask sequence is a
prefix of the uncoarsened run's, which may carry at most ONE extra trailing
instruction (conclusion 2); the durations agree on every full coarse
instruction except possibly the last pre-branch one (conclusion 3), the
coarsened run emits at most as many instructions (conclusion 4), and the
total emitted duration, terminal BRANCH included, is identical
(conclusion 5).  It is NOT true that the two runs produce the same
per-instruction durations and bitmasks outright (see the counterexample):
the uncoarsened loop simulates `g - 1` extra fine cycles, which can split
the trailing instruction. -/
theorem c4_amended (g M : ℕ) (hg : 0 < g) (hM : 1 ≤ M)
    (pulses masks : List Pulse) (signals : List Signal)
    (signal_channels : List ℤ) (duration q nr_channels res : ℤ)
    (hq : 0 < q) (hD : duration = q * (g : ℤ) * (M : ℤ))
    (hps : ∀ p ∈ pulses, 0 < p.period ∧ (g : ℤ) ∣ p.period ∧
      (g : ℤ) ∣ p.offset ∧ (g : ℤ) ∣ p.high)
    (hpoff : ∀ p ∈ pulses, 0 ≤ p.offset)
    (hms : ∀ p ∈ masks, 0 < p.period ∧ (g : ℤ) ∣ p.period ∧
      (g : ℤ) ∣ p.offset ∧ (g : ℤ) ∣ p.high)
    (hmoff : ∀ p ∈ masks, 0 ≤ p.offset) :
    (∀ k r : ℤ, 0 ≤ r → r < (g : ℤ) →
      chs_at (pulses.map (pulse_div (g : ℤ))) (masks.map (pulse_div (g : ℤ)))
          signal_channels
          ((signals.filter (fun s => ¬ s.active_high)).flatMap (·.channels))
          nr_channels res k =
        chs_at pulses masks signal_channels
          ((signals.filter (fun s => ¬ s.active_high)).flatMap (·.channels))
          nr_channels res (k * (g : ℤ) + r)) ∧
    (∃ tail : List (List ℤ),
      ((generate_with_gcd 1 pulses masks signals signal_channels duration q
          nr_channels res).dropLast).map (·.flags) =
        ((generate_with_gcd (g : ℤ) pulses masks signals signal_channels
          duration q nr_channels res).dropLast).map (·.flags) ++ tail ∧
      tail.length ≤ 1) ∧
    (((generate_with_gcd 1 pulses masks signals signal_channels duration q
          nr_channels res).dropLast).map (·.duration)).take
        (((generate_with_gcd (g : ℤ) pulses masks signals signal_channels
          duration q nr_channels res).dropLast).length - 1) =
      (((generate_with_gcd (g : ℤ) pulses masks signals signal_channels
          duration q nr_channels res).dropLast).map (·.duration)).take
        (((generate_with_gcd (g : ℤ) pulses masks signals signal_channels
          duration q nr_channels res).dropLast).length - 1) ∧
    (generate_with_gcd (g : ℤ) pulses masks signals signal_channels duration
        q nr_channels res).length ≤
      (generate_with_gcd 1 pulses masks signals signal_channels duration q
        nr_channels res).length ∧
    ((generate_with_gcd (g : ℤ) pulses masks signals signal_channels
        duration q nr_channels res).map (·.duration)).sum =
      ((generate_with_gcd 1 pulses masks signals signal_channels duration q
        nr_channels res).map (·.duration)).sum := by
  have hg' : (0 : ℤ) < (g : ℤ) := by exact_mod_cast hg
  have hqQ : (q : ℚ) ≠ 0 := by
    have h0 : (0 : ℚ) < (q : ℚ) := by exact_mod_cast hq
    exact ne_of_gt h0
  have hgQ : ((g : ℕ) : ℚ) ≠ 0 := by
    have h0 : (0 : ℚ) < ((g : ℕ) : ℚ) := by exact_mod_cast hg
    exact ne_of_gt h0
  have hNcraw : (pyTrunc ((duration : ℚ) / ((q * (g : ℤ) : ℤ) : ℚ)) -
      1).toNat = M - 1 := by
    have hne : ((q * (g : ℤ) : ℤ) : ℚ) ≠ 0 := by
      push_cast
      exact mul_ne_zero hqQ hgQ
    have hdiv : (duration : ℚ) / ((q * (g : ℤ) : ℤ) : ℚ) =
        (((M : ℕ) : ℤ) : ℚ) := by
      rw [div_eq_iff hne, hD]
      push_cast
      ring
    rw [hdiv, pyTrunc_intCast]
    omega
  have hNfraw : (pyTrunc ((duration : ℚ) / ((q * 1 : ℤ) : ℚ)) - 1).toNat =
      (M - 1) * g + (g - 1) := by
    have hne1 : ((q * 1 : ℤ) : ℚ) ≠ 0 := by
      rw [mul_one]
      exact hqQ
    have hdiv1 : (duration : ℚ) / ((q * 1 : ℤ) : ℚ) =
        (((g * M : ℕ) : ℤ) : ℚ) := by
      rw [div_eq_iff hne1, hD]
      push_cast
      ring
    rw [hdiv1, pyTrunc_intCast]
    obtain ⟨M', hM'⟩ : ∃ M', M = M' + 1 := ⟨M - 1, by omega⟩
    obtain ⟨g', hg2⟩ : ∃ g', g = g' + 1 := ⟨g - 1, by omega⟩
    subst hM'
    subst hg2
    rw [show (g' + 1) * (M' + 1) = g' * M' + g' + M' + 1 from by ring,
      show (M' + 1 - 1) * (g' + 1) + (g' + 1 - 1) = g' * M' + M' + g' from by
        simp only [Nat.add_sub_cancel]; ring]
    generalize g' * M' = A
    omega
  have hNf := hNfraw
  rw [mul_one] at hNf
  have hmap1 : ∀ l : List Pulse, l.map (pulse_div 1) = l := by
    intro l
    rw [show pulse_div 1 = id from funext pulse_div_one, List.map_id]
  have hcI : generate_with_gcd (g : ℤ) pulses masks signals signal_channels
      duration q nr_channels res =
      (List.zip
        (generate_loop (pulses.map (pulse_div (g : ℤ)))
          (masks.map (pulse_div (g : ℤ))) signal_channels
          ((signals.filter (fun s => ¬ s.active_high)).flatMap (·.channels))
          ((g : ℤ) * q) nr_channels res (M - 1)).1
        (generate_loop (pulses.map (pulse_div (g : ℤ)))
          (masks.map (pulse_div (g : ℤ))) signal_channels
          ((signals.filter (fun s => ¬ s.active_high)).flatMap (·.channels))
          ((g : ℤ) * q) nr_channels res (M - 1)).2).map
        (fun tc => Instruction.mk "" tc.2 tc.1 Opcode.CONTINUE 0) ++
      [Instruction.mk "" (all_channels_off signals nr_channels res)
        ((g : ℤ) * q) Opcode.BRANCH 0] := by
    unfold generate_with_gcd
    simp only []
    rw [rescale_pulses_eq]
    simp only []
    rw [hNcraw]
    simp only [mul_comm q ((g : ℕ) : ℤ)]
  have hfI : generate_with_gcd 1 pulses masks signals signal_channels
      duration q nr_channels res =
      (List.zip
        (generate_loop pulses masks signal_channels
          ((signals.filter (fun s => ¬ s.active_high)).flatMap (·.channels))
          q nr_channels res ((M - 1) * g + (g - 1))).1
        (generate_loop pulses masks signal_channels
          ((signals.filter (fun s => ¬ s.active_high)).flatMap (·.channels))
          q nr_channels res ((M - 1) * g + (g - 1))).2).map
        (fun tc => Instruction.mk "" tc.2 tc.1 Opcode.CONTINUE 0) ++
      [Instruction.mk "" (all_channels_off signals nr_channels res) q
        Opcode.BRANCH 0] := by
    unfold generate_with_gcd
    simp only []
    rw [rescale_pulses_eq]
    simp only [mul_one]
    rw [hmap1 pulses, hmap1 masks, hNf]
  have hlenc :
      (generate_loop (pulses.map (pulse_div (g : ℤ)))
        (masks.map (pulse_div (g : ℤ))) signal_channels
        ((signals.filter (fun s => ¬ s.active_high)).flatMap (·.channels))
        ((g : ℤ) * q) nr_channels res (M - 1)).1.length =
      (generate_loop (pulses.map (pulse_div (g : ℤ)))
        (masks.map (pulse_div (g : ℤ))) signal_channels
        ((signals.filter (fun s => ¬ s.active_high)).flatMap (·.channels))
        ((g : ℤ) * q) nr_channels res (M - 1)).2.length :=
    generate_fold_len (pulses.map (pulse_div (g : ℤ)))
      (masks.map (pulse_div (g : ℤ))) signal_channels
      ((signals.filter (fun s => ¬ s.active_high)).flatMap (·.channels))
      ((g : ℤ) * q) nr_channels res (M - 1)
  have hlenf :
      (generate_loop pulses masks signal_channels
        ((signals.filter (fun s => ¬ s.active_high)).flatMap (·.channels))
        q nr_channels res ((M - 1) * g + (g - 1))).1.length =
      (generate_loop pulses masks signal_channels
        ((signals.filter (fun s => ¬ s.active_high)).flatMap (·.channels))
        q nr_channels res ((M - 1) * g + (g - 1))).2.length :=
    generate_fold_len pulses masks signal_channels
      ((signals.filter (fun s => ¬ s.active_high)).flatMap (·.channels))
      q nr_channels res ((M - 1) * g + (g - 1))
  obtain ⟨tail, hT2, hTlen, hT1⟩ := generate_loop_coarse pulses masks
    signal_channels
    ((signals.filter (fun s => ¬ s.active_high)).flatMap (·.channels))
    q nr_channels res g (M - 1) (g - 1) hg (by omega) hps hpoff hms hmoff
  refine ⟨?_, ?_, ?_, ?_, ?_⟩
  · intro k r hr hrg
    exact chs_at_coarse (g : ℤ) hg' pulses masks signal_channels
      ((signals.filter (fun s => ¬ s.active_high)).flatMap (·.channels))
      nr_channels res hps hms k r hr hrg
  · refine ⟨tail, ?_, hTlen⟩
    rw [hcI, hfI, List.dropLast_concat, List.dropLast_concat,
      map_flags_zip _ _ hlenf, map_flags_zip _ _ hlenc]
    exact hT2
  · rw [hcI, hfI, List.dropLast_concat, List.dropLast_concat,
      map_duration_zip _ _ hlenf, map_duration_zip _ _ hlenc,
      List.length_map, List.length_zip, min_eq_left (le_of_eq hlenc)]
    exact hT1
  · have hlen2 := congrArg List.length hT2
    rw [List.length_append] at hlen2
    rw [hcI, hfI]
    simp only [List.length_append, List.length_map, List.length_zip,
      List.length_cons, List.length_nil]
    omega
  · rw [generate_with_gcd_duration_sum, generate_with_gcd_duration_sum,
      hNcraw, hNfraw]
    obtain ⟨M', hM'⟩ : ∃ M', M = M' + 1 := ⟨M - 1, by omega⟩
    obtain ⟨g', hg2⟩ : ∃ g', g = g' + 1 := ⟨g - 1, by omega⟩
    subst hM'
    subst hg2
    simp only [Nat.add_sub_cancel]
    push_cast
    ring

/-- Witness for the amended C4 theorem at the concrete pulse of period 4
and high 2 quanta, coarsening factor 2, quantum 20 ns and duration 160 ns:
the hypotheses hold, the uncoarsened run's compressed bitmask sequence
extends the coarsened one by at most one trailing entry, and the total
emitted durations agree. -/
theorem c4_amended_witness :
    ((0 : ℤ) < 20 ∧ (160 : ℤ) = 20 * ((2 : ℕ) : ℤ) * ((4 : ℕ) : ℤ) ∧
      (∀ p ∈ [c4_pulse], 0 < p.period ∧ ((2 : ℕ) : ℤ) ∣ p.period ∧
        ((2 : ℕ) : ℤ) ∣ p.offset ∧ ((2 : ℕ) : ℤ) ∣ p.high)) ∧
    (∃ tail : List (List ℤ),
      ((generate_with_gcd 1 [c4_pulse] [] [sig10] [0] 160 20 24
          3).dropLast).map (·.flags) =
        ((generate_with_gcd ((2 : ℕ) : ℤ) [c4_pulse] [] [sig10] [0] 160 20
          24 3).dropLast).map (·.flags) ++ tail ∧
      tail.length ≤ 1) ∧
    ((generate_with_gcd ((2 : ℕ) : ℤ) [c4_pulse] [] [sig10] [0] 160 20 24
        3).map (·.duration)).sum =
      ((generate_with_gcd 1 [c4_pulse] [] [sig10] [0] 160 20 24 3).map
        (·.duration)).sum :=
  ⟨⟨by decide, by decide, by decide⟩,
   (c4_amended 2 4 (by decide) (by decide) [c4_pulse] [] [sig10] [0] 160 20
      24 3 (by decide) (by decide) (by decide) (by decide) (by decide)
      (by decide)).2.1,
   (c4_amended 2 4 (by decide) (by decide) [c4_pulse] [] [sig10] [0] 160 20
      24 3 (by decide) (by decide) (by decide) (by decide) (by decide)
      (by decide)).2.2.2.2⟩

end PB
